import Mathlib

/-!
Verification development for the Hypercube interactive-argument library.

The library is embedded shallowly over the field `ZMod p`:

* `multilinear.rs`  → `chis`, `eval_eq`, `eval_chis`, `eval_mle`,
  `pad_next_power_of_two` (and `set_variable`, defined in
  `linearsumcheck.rs` and imported by `sumcheck.rs`);
* `univariate.rs`   → `eval_ule` (with its fast path isolated as `ule_fast`);
* `fiatshamir.rs`   → the transcript is modelled as an append-only list of
  labelled events (`TEvent`); challenges are produced by an arbitrary
  deterministic oracle `Oracle p` applied to the history, mirroring a
  deterministic sponge;
* `sumcheck.rs` / `linearsumcheck.rs` → `derive_points`, `scProveFull`,
  `sc_prove`, `sc_verify`, `SumcheckProof`;
* `grandproduct.rs` → `compute_tree`, `factor`, `GrandProductProof`,
  `gpProveFull`, `gp_prove_free`, `gp_verify`;
* `spark.rs`        → `to_bits`, `SparkProof`, `sparkProveFull`, `sparkVerify`.

Rust `assert!`/index panics inside verifiers are modelled by returning
`Option`: `none` is a verification failure (rejection), `some` carries the
verifier's outputs together with the final transcript history.
-/

set_option maxRecDepth 20000

namespace Hypercube

/-- The field inverse, written as the Fermat power `a^(p-2)` so that it is
computable by the kernel; for a prime modulus this is the field inverse
(`finv_eq_inv` below), matching the Rust field's `inverse()` on the nonzero
arguments the library inverts. -/
def finv {p : ℕ} (a : ZMod p) : ZMod p := a ^ (p - 2)

/-- `usize::ilog2` (floor base-2 logarithm), with structural fuel so that
the kernel can evaluate it; `ilog2_eq_log2` identifies it with
`Nat.log2`. -/
def ilog2Aux : ℕ → ℕ → ℕ
  | 0, _ => 0
  | fuel + 1, n => if 2 ≤ n then ilog2Aux fuel (n / 2) + 1 else 0

/-- `usize::ilog2`. -/
def ilog2 (n : ℕ) : ℕ := ilog2Aux n n

/-- `usize::next_power_of_two`, with structural fuel (`nextPow2 0 = 1`,
matching Rust). -/
def nextPow2Aux : ℕ → ℕ → ℕ
  | 0, _ => 1
  | fuel + 1, n => if n ≤ 1 then 1 else 2 * nextPow2Aux fuel ((n + 1) / 2)

/-- `usize::next_power_of_two`. -/
def nextPow2 (n : ℕ) : ℕ := nextPow2Aux n n

/-! ### multilinear.rs -/

/-- `chis` (multilinear.rs:3-10): iteratively doubles the table, starting
from `[1]`; each point coordinate `r` replaces every entry `t` by the pair
`((1-r)*t, r*t)`.  Note that the coordinate processed first ends up
governing the most significant bit of the table index. -/
def chis {p : ℕ} (point : List (ZMod p)) : List (ZMod p) :=
  point.foldl (fun table r => table.flatMap (fun t => [(1 - r) * t, r * t])) [1]

/-- `eval_eq` (multilinear.rs:12-16): product over the indices of `a` of
`a_i*b_i + (1-a_i)*(1-b_i)`.  (Rust indexes `b` with `a`'s indices and
panics when `b` is shorter; the modelled claims only use equal lengths.) -/
def eval_eq {p : ℕ} (a b : List (ZMod p)) : ZMod p :=
  ((List.range a.length).map
    (fun i => a.getD i 0 * b.getD i 0 + (1 - a.getD i 0) * (1 - b.getD i 0))).prod

/-- `eval_chis` (multilinear.rs:18-21): inner product of the chi table with
the evaluation table.  (The Rust code asserts the two lengths are equal;
contexts where that assert matters add the length check explicitly.) -/
def eval_chis {p : ℕ} (c evals : List (ZMod p)) : ZMod p :=
  (List.zipWith (· * ·) c evals).sum

/-- `eval_mle` (multilinear.rs:23-25). -/
def eval_mle {p : ℕ} (point evals : List (ZMod p)) : ZMod p :=
  eval_chis (chis point) evals

/-- `pad_next_power_of_two` (multilinear.rs:27-31): right-pad with zeros to
the next power of two (`next_power_of_two 0 = 1`, matching Rust). -/
def pad_next_power_of_two {p : ℕ} (terms : List (ZMod p)) : List (ZMod p) :=
  terms ++ List.replicate (nextPow2 terms.length - terms.length) 0

/-- `set_variable` (linearsumcheck.rs:10-17; `sumcheck.rs` imports an
identical function): split at `len/2` and combine `(1-r)*a + r*b`.
This fixes the table-index bit governed by the first point coordinate. -/
def set_variable {p : ℕ} (mle : List (ZMod p)) (r : ZMod p) : List (ZMod p) :=
  let half := mle.length / 2
  List.zipWith (fun a b => (1 - r) * a + r * b) (mle.take half) (mle.drop half)

/-! ### univariate.rs -/

/-- The fast-path test of `eval_ule` (univariate.rs:5): `F::ZERO <= r` is
always true for canonical representatives, and `r < F::from(len)` compares
canonical representatives, i.e. `r.val < ((len : F)).val`. -/
def ule_fast {p : ℕ} (points : List (ZMod p)) (r : ZMod p) : Bool :=
  decide (r.val < ((points.length : ZMod p)).val)

/-- `eval_ule` (univariate.rs:3-31).  Fast path: return `points[r.val]`.
Slow path: progressive Lagrange coefficients; the Rust loop carries the
running `(total, multiplier)` pair, modelled by a `foldl` over
`1..len-1` (offset by one from `List.range (len-1)`). -/
def eval_ule {p : ℕ} (points : List (ZMod p)) (r : ZMod p) : ZMod p :=
  if ule_fast points r then points.getD r.val 0
  else
    let len := points.length
    let multiplier0 : ZMod p :=
      ((List.range (len - 1)).map (fun k => r - (((k + 1 : ℕ) : ZMod p)))).prod
    let inversions : ZMod p :=
      ((List.range (len - 1)).map (fun k => (0 : ZMod p) - (((k + 1 : ℕ) : ZMod p)))).prod
    let m1 := multiplier0 * finv inversions
    (((List.range (len - 1)).foldl
      (fun (st : ZMod p × ZMod p) j =>
        let i := j + 1
        let m := st.2 * (r - (((i - 1 : ℕ) : ZMod p)))
          * finv ((r - ((i : ℕ) : ZMod p)) * ((i : ℕ) : ZMod p))
          * ((0 : ZMod p) - (((len - i : ℕ) : ZMod p)))
        (st.1 + m * points.getD i 0, m))
      (m1 * points.getD 0 0, m1))).1

/-! ### fiatshamir.rs : the transcript model -/

/-- Transcript labels used by the library (the byte-string labels of the
Rust sources, one constructor each). -/
inductive Label where
  | sumcheck_claim
  | sumcheck_degree
  | sumcheck_rounds
  | sumcheck_points
  | sumcheck_challenge
  | grand_product_claim
  | grand_product_point
  | grand_product_challenge
  | spark_challenge
  | spark_gamma
  | spark_tau
  deriving DecidableEq

/-- The two framing messages used by `append_points` (fiatshamir.rs:23-29). -/
inductive MsgTag where
  | begin_append_points
  | end_append_points
  deriving DecidableEq

/-- One transcript operation: absorb a scalar, absorb a framing message, or
squeeze a challenge. -/
inductive TEvent (p : ℕ) where
  | scalar (label : Label) (v : ZMod p)
  | message (label : Label) (m : MsgTag)
  | chal (label : Label)
  deriving DecidableEq

/-- A deterministic challenge oracle: the challenge squeezed at any point is
a function of the whole history of transcript operations so far (the
squeeze event included), mirroring a deterministic sponge. -/
def Oracle (p : ℕ) : Type := List (TEvent p) → ZMod p

/-- The events produced by `append_points` (fiatshamir.rs:23-29): a begin
message, one scalar per point, an end message. -/
def pointsEvents {p : ℕ} (l : Label) (pts : List (ZMod p)) : List (TEvent p) :=
  (TEvent.message l MsgTag.begin_append_points :: pts.map (TEvent.scalar l))
    ++ [TEvent.message l MsgTag.end_append_points]

/-- `challenge_scalars` (fiatshamir.rs:37-39): `n` successive squeezes under
one label; returns the challenges and the grown history. -/
def squeezeN {p : ℕ} (O : Oracle p) (l : Label) :
    List (TEvent p) → ℕ → List (ZMod p) × List (TEvent p)
  | h, 0 => ([], h)
  | h, n + 1 =>
      let h1 := h ++ [TEvent.chal l]
      let r := O h1
      let (rs, h') := squeezeN O l h1 n
      (r :: rs, h')

/-! ### sumcheck.rs / linearsumcheck.rs -/

/-- The univariate sample `g(t)` computed inside `derive_points`
(linearsumcheck.rs:19-39, identical in sumcheck.rs:10-30): the sum over the
low half of the hypercube of the product over the mles of
`m[i]*(1-t) + m[i+half]*t`. -/
def gEval {p : ℕ} (mles : List (List (ZMod p))) (t : ZMod p) : ZMod p :=
  let half := (mles.headD []).length / 2
  ((List.range half).map (fun i =>
    (mles.map (fun m => m.getD i 0 * (1 - t) + m.getD (i + half) 0 * t)).prod)).sum

/-- `derive_points` (linearsumcheck.rs:19-39): `degree+1` samples of the
round polynomial, where slot 1 is finally `last_claim - points[0]`
(the `j = 1` assignment inside the Rust loop overwrites the slot on every
pass; only the last assignment, made after `points[0]` is complete,
survives — and it is never made when the `i`-loop is empty, i.e. when
`half = 0`, in which case the slot keeps its initial zero). -/
def derive_points {p : ℕ} (mles : List (List (ZMod p))) (last_claim : ZMod p) :
    List (ZMod p) :=
  let degree := mles.length + 1
  let half := (mles.headD []).length / 2
  (List.range degree).map (fun j =>
    if j = 1 then (if half = 0 then 0 else last_claim - gEval mles 0)
    else gEval mles ((j : ℕ) : ZMod p))

/-- The prover's round loop (`for i in 1..rounds` of
linearsumcheck.rs:57-67 / sumcheck.rs:59-69), by recursion on the number of
remaining iterations.  Returns the round polynomials produced by the loop,
the challenges consumed, the folded mles, the last round polynomial and the
final history. -/
def scProveLoop {p : ℕ} (O : Oracle p) :
    List (List (ZMod p)) → List (ZMod p) → List (TEvent p) → ℕ →
      List (List (ZMod p)) × List (ZMod p) × List (List (ZMod p)) × List (ZMod p)
        × List (TEvent p)
  | mles, prevPts, h, 0 => ([], [], mles, prevPts, h)
  | mles, prevPts, h, k + 1 =>
      let h1 := h ++ [TEvent.chal Label.sumcheck_challenge]
      let r := O h1
      let mles' := mles.map (fun m => set_variable m r)
      let last_claim := eval_ule prevPts r
      let pts := derive_points mles' last_claim
      let h2 := h1 ++ pointsEvents Label.sumcheck_points pts
      let (ps, rs, fm, fp, h') := scProveLoop O mles' pts h2 k
      (pts :: ps, r :: rs, fm, fp, h')

/-- Joint output of the sumcheck prover. -/
structure ScProveOut (p : ℕ) where
  polys : List (List (ZMod p))
  rs : List (ZMod p)
  final_terms : List (ZMod p)
  hist : List (TEvent p)

/-- The sumcheck prover (sumcheck.rs:43-81; linearsumcheck.rs:41-71 is the
same computation without `final_terms`): absorb claim, degree and round
count, emit the first round polynomial, loop, squeeze the final challenge,
and read off each mle's final scalar. -/
def scProveFull {p : ℕ} (O : Oracle p) (claim : ZMod p)
    (mles : List (List (ZMod p))) (h0 : List (TEvent p)) : ScProveOut p :=
  let degree := mles.length
  let rounds := ilog2 (mles.headD []).length
  let h1 := h0 ++ [TEvent.scalar Label.sumcheck_claim claim,
    TEvent.scalar Label.sumcheck_degree ((degree : ℕ) : ZMod p),
    TEvent.scalar Label.sumcheck_rounds ((rounds : ℕ) : ZMod p)]
  let pts0 := derive_points mles claim
  let h2 := h1 ++ pointsEvents Label.sumcheck_points pts0
  let (ps, rs, fm, _fp, h3) := scProveLoop O mles pts0 h2 (rounds - 1)
  let h4 := h3 ++ [TEvent.chal Label.sumcheck_challenge]
  let rFin := O h4
  { polys := pts0 :: ps
    rs := rs ++ [rFin]
    final_terms := fm.map (fun m => (set_variable m rFin).headD 0)
    hist := h4 }

/-- `linearsumcheck::prove` (linearsumcheck.rs:41-71): the same prover,
returning `(polynomials, rs)` (with the history; `final_terms` are simply
not returned).  `grandproduct.rs` calls this prover as `sumcheck::prove`,
ignoring the third component of its result. -/
def sc_prove {p : ℕ} (O : Oracle p) (claim : ZMod p)
    (mles : List (List (ZMod p))) (h0 : List (TEvent p)) :
    List (List (ZMod p)) × List (ZMod p) × List (TEvent p) :=
  let o := scProveFull O claim mles h0
  (o.polys, o.rs, o.hist)

/-- `SumcheckProof` (sumcheck.rs:32-40). -/
structure SumcheckProof (p : ℕ) where
  polynomials : List (List (ZMod p))
  rands : List (ZMod p)
  final_terms : List (ZMod p)
  degree : ℕ
  rounds : ℕ
  claim : ZMod p

/-- `SumcheckProof::prove` (sumcheck.rs:43-81). -/
def SumcheckProof.prove {p : ℕ} (O : Oracle p) (claim : ZMod p)
    (mles : List (List (ZMod p))) (h0 : List (TEvent p)) :
    SumcheckProof p × List (TEvent p) :=
  let o := scProveFull O claim mles h0
  ({ polynomials := o.polys
     rands := o.rs
     final_terms := o.final_terms
     degree := mles.length
     rounds := ilog2 (mles.headD []).length
     claim := claim }, o.hist)

/-- The verifier's round loop (`for i in 1..polynomials.len()` of
linearsumcheck.rs:86-95 / sumcheck.rs:90-99), structurally recursing over
the remaining round polynomials.  Each iteration squeezes a challenge,
checks the length of the incoming polynomial against `degree + 1` (an index
panic on a too-short polynomial also rejects) and checks the running
consistency equation.  Returns the loop's challenges and the final
history. -/
def scVerifyLoop {p : ℕ} (O : Oracle p) (degree : ℕ) :
    List (ZMod p) → List (List (ZMod p)) → List (TEvent p) →
      Option (List (ZMod p) × List (TEvent p))
  | _, [], h => some ([], h)
  | prev, q :: qs, h =>
      let h1 := h ++ [TEvent.chal Label.sumcheck_challenge]
      let r := O h1
      if q.length = degree + 1 ∧ 2 ≤ q.length
          ∧ eval_ule prev r = q.getD 0 0 + q.getD 1 0 then
        let h2 := h1 ++ pointsEvents Label.sumcheck_points q
        match scVerifyLoop O degree q qs h2 with
        | none => none
        | some (rs, h') => some (r :: rs, h')
      else none

/-- `linearsumcheck::verify` (linearsumcheck.rs:73-104;
`SumcheckProof::verify`, sumcheck.rs:83-108, is the identical computation
reading `claim`/`polynomials`/`degree`/`rounds` from the proof value).
Failed asserts and out-of-bounds index panics reject (`none`):
`polynomials[0]` forces a non-empty list with at least two entries,
`rs[i-1] = r` inside the loop panics when `polynomials.len() ≥ rounds + 2`,
and the final `polynomials[rounds-1]` access panics when
`polynomials.len() < rounds`.  The returned challenge list reproduces the
final state of the Rust `rs` buffer (preallocated with `rounds` zeros, the
loop writing positions `0..polys.len()-2` and the final challenge
overwriting position `rounds - 1`). -/
def sc_verify {p : ℕ} (O : Oracle p) (claim : ZMod p)
    (polys : List (List (ZMod p))) (degree rounds : ℕ) (h0 : List (TEvent p)) :
    Option (List (ZMod p) × ZMod p × List (TEvent p)) :=
  match polys with
  | [] => none
  | p0 :: rest =>
    if 2 ≤ p0.length ∧ claim = p0.getD 0 0 + p0.getD 1 0
        ∧ polys.length < rounds + 2 then
      let h1 := h0 ++ [TEvent.scalar Label.sumcheck_claim claim,
        TEvent.scalar Label.sumcheck_degree ((degree : ℕ) : ZMod p),
        TEvent.scalar Label.sumcheck_rounds ((rounds : ℕ) : ZMod p)]
        ++ pointsEvents Label.sumcheck_points p0
      match scVerifyLoop O degree p0 rest h1 with
      | none => none
      | some (loopRs, h2) =>
        if rounds = 0 then some ([], claim, h2)
        else
          if rounds - 1 < polys.length then
            let h3 := h2 ++ [TEvent.chal Label.sumcheck_challenge]
            let rFin := O h3
            let final_eval := eval_ule (polys.getD (rounds - 1) []) rFin
            let rs := loopRs.take (rounds - 1)
              ++ List.replicate ((rounds - 1) - loopRs.length) 0 ++ [rFin]
            some (rs, final_eval, h3)
          else none
    else none

/-- `SumcheckProof::verify` (sumcheck.rs:83-108): the shared verifier run on
the proof's own fields. -/
def SumcheckProof.verify {p : ℕ} (pf : SumcheckProof p) (O : Oracle p)
    (h0 : List (TEvent p)) : Option (List (ZMod p) × ZMod p × List (TEvent p)) :=
  sc_verify O pf.claim pf.polynomials pf.degree pf.rounds h0

/-! ### grandproduct.rs -/

/-- One layer-halving step of `compute_tree` (grandproduct.rs:17-25):
entry `i` of the next layer is `last[2i] * last[2i+1]`.  Written by
two-at-a-time recursion, which agrees with the Rust index loop (for an odd
length both drop the last element). -/
def pairProd {p : ℕ} : List (ZMod p) → List (ZMod p)
  | a :: b :: rest => a * b :: pairProd rest
  | _ => []

/-- `factor` (grandproduct.rs:30-38): split into even-indexed and
odd-indexed entries. -/
def factor {p : ℕ} : List (ZMod p) → List (ZMod p) × List (ZMod p)
  | a :: b :: rest =>
      let lr := factor rest
      (a :: lr.1, b :: lr.2)
  | _ => ([], [])

/-- The layer list of `compute_tree` (grandproduct.rs:12-28), built root
first (the Rust code builds leaves first and reverses; `computeTreeAux w k`
is the reversed list of `k+1` layers). -/
def computeTreeAux {p : ℕ} : List (ZMod p) → ℕ → List (List (ZMod p))
  | last, 0 => [last]
  | last, k + 1 => computeTreeAux (pairProd last) k ++ [last]

/-- `compute_tree` (grandproduct.rs:12-28): `log2 (len)` layers, root pair
first, the witness last. -/
def compute_tree {p : ℕ} (witness : List (ZMod p)) : List (List (ZMod p)) :=
  computeTreeAux witness (ilog2 witness.length - 1)

/-- `GrandProductProof` (grandproduct.rs:40-45). -/
structure GrandProductProof (p : ℕ) where
  claims : List (ZMod p)
  left_evals : List (ZMod p)
  right_evals : List (ZMod p)
  sumcheck_proofs : List (List (List (ZMod p)))

/-- The layer loop of the grand-product prover (`for i in 1..layers.len()`,
grandproduct.rs:70-90 and identically grandproduct.rs:149-169), structurally
recursing over the non-root layers.  Returns the claims, left/right
evaluations and sumcheck proofs pushed by the loop, the final point `z` and
the final history. -/
def gpLoop {p : ℕ} (O : Oracle p) :
    List (List (ZMod p)) → ZMod p → List (ZMod p) → List (TEvent p) →
      List (ZMod p) × List (ZMod p) × List (ZMod p) × List (List (List (ZMod p)))
        × List (ZMod p) × List (TEvent p)
  | [], _, z, h => ([], [], [], [], z, h)
  | layer :: more, claim, z, h =>
      let eq := chis z
      let lr := factor layer
      let (polys, rs, h1) := sc_prove O claim [eq, lr.1, lr.2] h
      let left := eval_mle rs lr.1
      let right := eval_mle rs lr.2
      let h2 := h1 ++ [TEvent.scalar Label.grand_product_point left,
        TEvent.scalar Label.grand_product_point right]
      let h3 := h2 ++ [TEvent.chal Label.grand_product_challenge]
      let c := O h3
      let claim' := eval_ule [left, right] c
      let z' := rs ++ [c]
      let (cls, ls, rsv, ps, zf, h') := gpLoop O more claim' z' h3
      (claim' :: cls, left :: ls, right :: rsv, polys :: ps, zf, h')

/-- Joint output of the grand-product prover, root challenge and final point
included. -/
structure GpOut (p : ℕ) where
  claims : List (ZMod p)
  left_evals : List (ZMod p)
  right_evals : List (ZMod p)
  sumcheck_proofs : List (List (List (ZMod p)))
  r0 : ZMod p
  zFinal : List (ZMod p)
  hist : List (TEvent p)

/-- `GrandProductProof::prove` (grandproduct.rs:48-97): absorb the claim,
squeeze the root challenge `r0` (nothing else is absorbed before it), reduce
the root pair by `eval_ule`, then run the layer loop. -/
def gpProveFull {p : ℕ} (O : Oracle p) (witness : List (ZMod p))
    (claim : ZMod p) (h0 : List (TEvent p)) : GpOut p :=
  let layers := compute_tree witness
  let h1 := h0 ++ [TEvent.scalar Label.grand_product_claim claim]
  let h2 := h1 ++ [TEvent.chal Label.grand_product_challenge]
  let r0 := O h2
  let root := layers.headD []
  let claim1 := eval_ule [root.getD 0 0, root.getD 1 0] r0
  let (cls, ls, rsv, ps, zf, h') := gpLoop O (layers.drop 1) claim1 [r0] h2
  { claims := claim :: claim1 :: cls
    left_evals := root.getD 0 0 :: ls
    right_evals := root.getD 1 0 :: rsv
    sumcheck_proofs := ps
    r0 := r0
    zFinal := zf
    hist := h' }

/-- The free function `grandproduct::prove` (grandproduct.rs:127-171),
whose body is the same token sequence as `GrandProductProof::prove` but
returns the four components as a tuple. -/
def gp_prove_free {p : ℕ} (O : Oracle p) (witness : List (ZMod p))
    (claim : ZMod p) (h0 : List (TEvent p)) : GpOut p :=
  let layers := compute_tree witness
  let h1 := h0 ++ [TEvent.scalar Label.grand_product_claim claim]
  let h2 := h1 ++ [TEvent.chal Label.grand_product_challenge]
  let r0 := O h2
  let root := layers.headD []
  let claim1 := eval_ule [root.getD 0 0, root.getD 1 0] r0
  let (cls, ls, rsv, ps, zf, h') := gpLoop O (layers.drop 1) claim1 [r0] h2
  { claims := claim :: claim1 :: cls
    left_evals := root.getD 0 0 :: ls
    right_evals := root.getD 1 0 :: rsv
    sumcheck_proofs := ps
    r0 := r0
    zFinal := zf
    hist := h' }

/-- `GrandProductProof::prove` as the proof value it returns. -/
def GrandProductProof.prove {p : ℕ} (O : Oracle p) (witness : List (ZMod p))
    (claim : ZMod p) (h0 : List (TEvent p)) : GrandProductProof p × List (TEvent p) :=
  let o := gpProveFull O witness claim h0
  ({ claims := o.claims, left_evals := o.left_evals,
     right_evals := o.right_evals, sumcheck_proofs := o.sumcheck_proofs }, o.hist)

/-- The verifier's layer loop (`for i in 1..claims.len()-1`,
grandproduct.rs:111-121 and identically grandproduct.rs:188-198): the fuel
argument is the Rust loop's iteration count `claims.len() - 2`, `i` is the
loop index (also the sumcheck round count of the layer), and the four lists
are the tails `claims[1..]`, `left_evals[1..]`, `right_evals[1..]`,
`sumcheck_proofs[0..]` being consumed in order.  Running out of
`sumcheck_proofs` is the Rust index panic (rejection). -/
def gpVerifyLoop {p : ℕ} (O : Oracle p) :
    List (ZMod p) → List (ZMod p) → List (ZMod p) → List (List (List (ZMod p))) →
      ℕ → ℕ → List (ZMod p) → List (TEvent p) →
      Option (List (ZMod p) × List (TEvent p))
  | _, _, _, _, _, 0, z, h => some (z, h)
  | c :: cs, l :: ls, r :: rs, pr :: prs, i, fuel + 1, z, h =>
      (match sc_verify O c pr 3 i h with
      | none => none
      | some (rands, expected, h1) =>
        let h2 := h1 ++ [TEvent.scalar Label.grand_product_point l,
          TEvent.scalar Label.grand_product_point r]
        let h3 := h2 ++ [TEvent.chal Label.grand_product_challenge]
        let c' := O h3
        if expected = eval_eq z rands * l * r then
          gpVerifyLoop O cs ls rs prs (i + 1) fuel (rands ++ [c']) h3
        else none)
  | _, _, _, _, _, _ + 1, _, _ => none

/-- The free function `grandproduct::verify` (grandproduct.rs:173-200;
`GrandProductProof::verify`, grandproduct.rs:99-124, is the identical
computation on the proof's fields): absorb `claims[0]`, check the length
equalities and the root product `claims[0] = left_evals[0]*right_evals[0]`
(an empty `left_evals` makes the root check an index panic: rejection),
squeeze the root challenge, run the layer loop, and return the last claim
with the final point. -/
def gp_verify {p : ℕ} (O : Oracle p) (claims left_evals right_evals : List (ZMod p))
    (sumcheck_proofs : List (List (List (ZMod p)))) (h0 : List (TEvent p)) :
    Option ((ZMod p × List (ZMod p)) × List (TEvent p)) :=
  match claims with
  | [] => none
  | c0 :: _ =>
    let h1 := h0 ++ [TEvent.scalar Label.grand_product_claim c0]
    if left_evals.length = right_evals.length
        ∧ left_evals.length = claims.length - 1 then
      match left_evals, right_evals with
      | l0 :: _, r0 :: _ =>
        if c0 = l0 * r0 then
          let h2 := h1 ++ [TEvent.chal Label.grand_product_challenge]
          let rc := O h2
          match gpVerifyLoop O (claims.drop 1) (left_evals.drop 1)
              (right_evals.drop 1) sumcheck_proofs 1 (claims.length - 2) [rc] h2 with
          | none => none
          | some (z, h') => some ((claims.getLastD 0, z), h')
        else none
      | _, _ => none
    else none

/-- `GrandProductProof::verify` (grandproduct.rs:99-124): the shared
verifier run on the proof's own fields. -/
def GrandProductProof.verify {p : ℕ} (pf : GrandProductProof p) (O : Oracle p)
    (h0 : List (TEvent p)) : Option ((ZMod p × List (ZMod p)) × List (TEvent p)) :=
  gp_verify O pf.claims pf.left_evals pf.right_evals pf.sumcheck_proofs h0

/-! ### spark.rs -/

/-- `to_bits` (spark.rs:41-50): the `size` low bits of the canonical
representative of `f`, as field elements, least significant first. -/
def to_bits {p : ℕ} (f : ZMod p) (size : ℕ) : List (ZMod p) :=
  (List.range size).map (fun i => if (ZMod.val f).testBit i then 1 else 0)

/-- The dense access vector of the Spark prover (spark.rs:88-95):
`e_rx[i] = eval_chis (chis rx) (to_bits rows[i] memory)` (note: an inner
product of the chi table with the bit decomposition of the address, not a
lookup of the chi table at the address). -/
def spark_e {p : ℕ} (chi : List (ZMod p)) (addrs : List ℕ) (memory : ℕ) :
    List (ZMod p) :=
  addrs.map (fun r => eval_chis chi (to_bits ((r : ℕ) : ZMod p) memory))

/-- The final-count vector of the Spark prover (spark.rs:105-113): the entry
at address `a` counts the accesses to `a`. -/
def countsVec {p : ℕ} (memory : ℕ) (addrs : List ℕ) : List (ZMod p) :=
  (List.range memory).map (fun a => ((addrs.countP (fun x => decide (x = a)) : ℕ) : ZMod p))

/-- `SparkProof` (spark.rs:52-64). -/
structure SparkProof (p : ℕ) where
  primary_sumcheck_proof : SumcheckProof p
  row_grand_product_proof : GrandProductProof p
  col_grand_product_proof : GrandProductProof p
  vals : List (ZMod p)
  e_rx : List (ZMod p)
  e_ry : List (ZMod p)
  read_rows : List (ZMod p)
  read_cols : List (ZMod p)
  counts_rows : List (ZMod p)
  counts_cols : List (ZMod p)
  memory : ℕ

/-- Joint output of the Spark prover, challenge points included. -/
structure SparkOut (p : ℕ) where
  proof : SparkProof p
  rx : List (ZMod p)
  ry : List (ZMod p)
  hist : List (TEvent p)

/-- The fingerprint `k*γ² + v*γ + t − τ` (spark.rs:118). -/
def fingerprint {p : ℕ} (gamma tau k v t : ZMod p) : ZMod p :=
  k * gamma ^ 2 + v * gamma + t - tau

/-- `SparkProof::prove` (spark.rs:66-161).  The first transcript operations
are the `2 * log2 memory` squeezes producing `rx ++ ry`; nothing is
absorbed before them.  (The locals `eq_rows`/`eq_cols` of spark.rs:80-86
are dead code — never read — and are omitted.)  The column product list
reuses `rows[i]` as its access addresses, exactly as spark.rs:140 does. -/
def sparkProveFull {p : ℕ} (vals : List (ZMod p)) (rows cols : List ℕ)
    (memory : ℕ) (O : Oracle p) (h0 : List (TEvent p)) : SparkOut p :=
  let m := ilog2 memory
  let (r, h1) := squeezeN O Label.spark_challenge h0 (m * 2)
  let rx := r.take m
  let ry := r.drop m
  let chi_rx := chis rx
  let chi_ry := chis ry
  let e_rx := spark_e chi_rx rows memory
  let e_ry := spark_e chi_ry cols memory
  let claim := ((List.range vals.length).map
    (fun i => vals.getD i 0 * e_rx.getD i 0 * e_ry.getD i 0)).sum
  let (primary, h2) := SumcheckProof.prove O claim [vals, e_rx, e_ry] h1
  let row_reads : List (ZMod p) := rows.map (fun i => ((i : ℕ) : ZMod p))
  let row_final : List (ZMod p) := countsVec memory rows
  let col_reads : List (ZMod p) := cols.map (fun i => ((i : ℕ) : ZMod p))
  let col_final : List (ZMod p) := countsVec memory cols
  let h3 := h2 ++ [TEvent.chal Label.spark_gamma]
  let gamma := O h3
  let h4 := h3 ++ [TEvent.chal Label.spark_tau]
  let tau := O h4
  let r_products : List (ZMod p) :=
    (List.range memory).map (fun i =>
        fingerprint gamma tau ((i : ℕ) : ZMod p)
          (eval_chis chi_rx (to_bits ((i : ℕ) : ZMod p) memory)) 0)
      ++ (List.range rows.length).map (fun i =>
        fingerprint gamma tau (((rows.getD i 0 : ℕ)) : ZMod p)
          (e_rx.getD i 0) (row_reads.getD i 0 + 1))
  let r_claim := r_products.foldl (· * ·) 1
  let r_padded := pad_next_power_of_two r_products
  let rowOut := gpProveFull O r_padded r_claim h4
  let c_products : List (ZMod p) :=
    (List.range memory).map (fun i =>
        fingerprint gamma tau ((i : ℕ) : ZMod p)
          (eval_chis chi_ry (to_bits ((i : ℕ) : ZMod p) memory)) 0)
      ++ (List.range rows.length).map (fun i =>
        fingerprint gamma tau (((rows.getD i 0 : ℕ)) : ZMod p)
          (e_ry.getD i 0) (col_reads.getD i 0 + 1))
  let c_claim := c_products.foldl (· * ·) 1
  let c_padded := pad_next_power_of_two c_products
  let colOut := gpProveFull O c_padded c_claim rowOut.hist
  { proof :=
    { primary_sumcheck_proof := primary
      row_grand_product_proof :=
        { claims := rowOut.claims, left_evals := rowOut.left_evals,
          right_evals := rowOut.right_evals, sumcheck_proofs := rowOut.sumcheck_proofs }
      col_grand_product_proof :=
        { claims := colOut.claims, left_evals := colOut.left_evals,
          right_evals := colOut.right_evals, sumcheck_proofs := colOut.sumcheck_proofs }
      vals := vals
      e_rx := e_rx
      e_ry := e_ry
      read_rows := row_reads
      read_cols := col_reads
      counts_rows := row_final
      counts_cols := col_final
      memory := memory }
    rx := rx
    ry := ry
    hist := colOut.hist }

/-- `SparkProof::prove` as the proof value it returns. -/
def SparkProof.prove {p : ℕ} (vals : List (ZMod p)) (rows cols : List ℕ)
    (memory : ℕ) (O : Oracle p) (h0 : List (TEvent p)) : SparkProof p :=
  (sparkProveFull vals rows cols memory O h0).proof

/-- `SparkProof::verify` (spark.rs:163-189): squeeze `2 * log2 memory`
challenges (`rx, ry` — unused afterwards), replay the primary sumcheck,
check the product of the final terms against its expected evaluation and
each of `vals`, `e_rx`, `e_ry` (as supplied in the proof) against the
corresponding final term via a direct MLE evaluation (the `eval_chis`
length assert is the explicit length guard), then squeeze `γ` and `τ`.
The function ends there: the two grand-product proofs are never verified
and no fingerprint cross-check is performed. -/
def sparkVerify {p : ℕ} (pf : SparkProof p) (O : Oracle p)
    (h0 : List (TEvent p)) : Option (List (TEvent p)) :=
  let m := ilog2 pf.memory
  let (_r, h1) := squeezeN O Label.spark_challenge h0 (m * 2)
  match SumcheckProof.verify pf.primary_sumcheck_proof O h1 with
  | none => none
  | some (rz, eval, h2) =>
    if pf.primary_sumcheck_proof.final_terms.prod = eval
        ∧ (chis rz).length = pf.vals.length
        ∧ eval_mle rz pf.vals = pf.primary_sumcheck_proof.final_terms.getD 0 0
        ∧ (chis rz).length = pf.e_rx.length
        ∧ eval_mle rz pf.e_rx = pf.primary_sumcheck_proof.final_terms.getD 1 0
        ∧ (chis rz).length = pf.e_ry.length
        ∧ eval_mle rz pf.e_ry = pf.primary_sumcheck_proof.final_terms.getD 2 0 then
      let h3 := h2 ++ [TEvent.chal Label.spark_gamma]
      let _gamma := O h3
      let h4 := h3 ++ [TEvent.chal Label.spark_tau]
      let _tau := O h4
      some h4
    else none

/-- Replace the two grand-product components of a Spark proof. -/
def SparkProof.withGPs {p : ℕ} (pf : SparkProof p)
    (g1 g2 : GrandProductProof p) : SparkProof p :=
  { pf with row_grand_product_proof := g1, col_grand_product_proof := g2 }

/-! ### Basic facts -/

theorem ilog2Aux_eq_log2 : ∀ (fuel n : ℕ), n ≤ fuel → ilog2Aux fuel n = Nat.log2 n
  | 0, n, h => by
      interval_cases n
      simp [ilog2Aux, Nat.log2]
  | fuel + 1, n, h => by
      rw [ilog2Aux, Nat.log2]
      by_cases h2 : 2 ≤ n
      · rw [if_pos h2, if_pos h2, ilog2Aux_eq_log2 fuel (n / 2) (by omega)]
      · rw [if_neg h2, if_neg h2]

theorem ilog2_eq_log2 (n : ℕ) : ilog2 n = Nat.log2 n :=
  ilog2Aux_eq_log2 n n le_rfl

theorem log2_two_pow : ∀ n : ℕ, Nat.log2 (2 ^ n) = n
  | 0 => by simp [Nat.log2]
  | n + 1 => by
      have h2 : 2 ≤ 2 ^ (n + 1) := by
        calc 2 = 2 ^ 1 := by norm_num
        _ ≤ 2 ^ (n + 1) := Nat.pow_le_pow_right (by norm_num) (by omega)
      rw [Nat.log2]
      simp only [ge_iff_le, h2, if_true]
      rw [pow_succ, Nat.mul_div_cancel _ (by norm_num : 0 < 2), log2_two_pow n]

theorem ilog2_two_pow (n : ℕ) : ilog2 (2 ^ n) = n := by
  rw [ilog2_eq_log2, log2_two_pow]

theorem finv_eq_inv {p : ℕ} [Fact p.Prime] (hp : 2 < p) (a : ZMod p) :
    finv a = a⁻¹ := by
  by_cases ha : a = 0
  · subst ha
    rw [finv, zero_pow (by omega), inv_zero]
  · have h1 : a * a ^ (p - 2) = 1 := by
      rw [← pow_succ']
      have hs : p - 2 + 1 = p - 1 := by omega
      rw [hs, ZMod.pow_card_sub_one_eq_one ha]
    rw [finv, ← inv_eq_of_mul_eq_one_right h1]

/-- One doubling step of `chis`. -/
def chisStep {p : ℕ} (table : List (ZMod p)) (r : ZMod p) : List (ZMod p) :=
  table.flatMap (fun t => [(1 - r) * t, r * t])

theorem chis_eq_foldl {p : ℕ} (point : List (ZMod p)) :
    chis point = point.foldl chisStep [1] := rfl

theorem chisStep_append {p : ℕ} (t1 t2 : List (ZMod p)) (r : ZMod p) :
    chisStep (t1 ++ t2) r = chisStep t1 r ++ chisStep t2 r :=
  List.flatMap_append t1 t2 _

theorem foldl_chisStep_append {p : ℕ} :
    ∀ (pts : List (ZMod p)) (s1 s2 : List (ZMod p)),
      pts.foldl chisStep (s1 ++ s2) = pts.foldl chisStep s1 ++ pts.foldl chisStep s2
  | [], _, _ => rfl
  | r :: pts, s1, s2 => by
      rw [List.foldl_cons, List.foldl_cons, List.foldl_cons, chisStep_append,
        foldl_chisStep_append pts]

theorem chisStep_map_mul {p : ℕ} (a r : ZMod p) (seed : List (ZMod p)) :
    chisStep (seed.map (fun t => a * t)) r = (chisStep seed r).map (fun t => a * t) := by
  induction seed with
  | nil => rfl
  | cons x xs ih =>
      simp only [List.map_cons, chisStep, List.flatMap_cons, List.map_append] at *
      rw [ih]
      simp [mul_left_comm]

theorem foldl_chisStep_map_mul {p : ℕ} :
    ∀ (pts : List (ZMod p)) (a : ZMod p) (seed : List (ZMod p)),
      pts.foldl chisStep (seed.map (fun t => a * t))
        = (pts.foldl chisStep seed).map (fun t => a * t)
  | [], _, _ => rfl
  | r :: pts, a, seed => by
      rw [List.foldl_cons, chisStep_map_mul, foldl_chisStep_map_mul pts, List.foldl_cons]

theorem chis_cons {p : ℕ} (r : ZMod p) (pts : List (ZMod p)) :
    chis (r :: pts)
      = (chis pts).map (fun t => (1 - r) * t) ++ (chis pts).map (fun t => r * t) := by
  rw [chis_eq_foldl, List.foldl_cons]
  have hstep : chisStep [(1 : ZMod p)] r
      = ([(1 : ZMod p)].map (fun t => (1 - r) * t)) ++ ([(1 : ZMod p)].map (fun t => r * t)) := by
    simp [chisStep]
  rw [hstep, foldl_chisStep_append, foldl_chisStep_map_mul, foldl_chisStep_map_mul,
    chis_eq_foldl]

theorem chis_length {p : ℕ} : ∀ pts : List (ZMod p), (chis pts).length = 2 ^ pts.length
  | [] => rfl
  | r :: pts => by
      rw [chis_cons]
      simp only [List.length_append, List.length_map, chis_length pts, List.length_cons]
      ring

theorem chis_snoc {p : ℕ} (pts : List (ZMod p)) (s : ZMod p) :
    chis (pts ++ [s]) = chisStep (chis pts) s := by
  rw [chis_eq_foldl, List.foldl_append, chis_eq_foldl]
  rfl

theorem eval_chis_cons {p : ℕ} (c x : ZMod p) (cs xs : List (ZMod p)) :
    eval_chis (c :: cs) (x :: xs) = c * x + eval_chis cs xs := by
  simp [eval_chis]

theorem eval_chis_append {p : ℕ} (a1 b1 a2 b2 : List (ZMod p))
    (h : a1.length = b1.length) :
    eval_chis (a1 ++ a2) (b1 ++ b2) = eval_chis a1 b1 + eval_chis a2 b2 := by
  unfold eval_chis
  rw [List.zipWith_append _ _ _ _ _ h, List.sum_append]

theorem eval_chis_map_left {p : ℕ} (a : ZMod p) :
    ∀ (c e : List (ZMod p)), eval_chis (c.map (fun t => a * t)) e = a * eval_chis c e
  | [], e => by simp [eval_chis]
  | x :: xs, [] => by simp [eval_chis]
  | x :: xs, y :: ys => by
      rw [List.map_cons, eval_chis_cons, eval_chis_cons, eval_chis_map_left a xs ys]
      ring

theorem eval_chis_map_right {p : ℕ} (a : ZMod p) :
    ∀ (c e : List (ZMod p)), eval_chis c (e.map (fun t => a * t)) = a * eval_chis c e
  | [], e => by simp [eval_chis]
  | x :: xs, [] => by simp [eval_chis]
  | x :: xs, y :: ys => by
      rw [List.map_cons, eval_chis_cons, eval_chis_cons, eval_chis_map_right a xs ys]
      ring

/-- The big-endian index of a bit string: the first bit is the most
significant one. -/
def beIdx : List Bool → ℕ :=
  List.foldl (fun acc b => 2 * acc + (if b then 1 else 0)) 0

/-- The little-endian index of a bit string: bit `i` contributes `2^i`
(`Σ_i b_i·2^i`, as in the specification's indexing convention). -/
def leIdx : List Bool → ℕ :=
  List.foldr (fun b acc => 2 * acc + (if b then 1 else 0)) 0

/-- The product `Π_i (b_i·r_i + (1-b_i)·(1-r_i))`: the factor is `r_i` where
`b_i = 1` and `1 - r_i` where `b_i = 0`. -/
def eqWeight {p : ℕ} (r : List (ZMod p)) (b : List Bool) : ZMod p :=
  (List.zipWith (fun (ri : ZMod p) (bi : Bool) => if bi then ri else 1 - ri) r b).prod

theorem beIdxAux_eq : ∀ (b : List Bool) (acc : ℕ),
    b.foldl (fun acc b => 2 * acc + (if b then 1 else 0)) acc
      = acc * 2 ^ b.length + beIdx b
  | [], acc => by simp [beIdx]
  | x :: xs, acc => by
      have h1 : beIdx (x :: xs)
          = xs.foldl (fun acc b => 2 * acc + (if b then 1 else 0))
              (2 * 0 + if x then 1 else 0) := rfl
      rw [List.foldl_cons, beIdxAux_eq xs, h1, beIdxAux_eq xs]
      cases x <;> simp [pow_succ] <;> ring

theorem beIdx_cons (x : Bool) (xs : List Bool) :
    beIdx (x :: xs) = (if x then 1 else 0) * 2 ^ xs.length + beIdx xs := by
  have h1 : beIdx (x :: xs)
      = xs.foldl (fun acc b => 2 * acc + (if b then 1 else 0))
          (2 * 0 + if x then 1 else 0) := rfl
  rw [h1, beIdxAux_eq]
  cases x <;> simp

theorem beIdx_lt : ∀ b : List Bool, beIdx b < 2 ^ b.length
  | [] => by simp [beIdx]
  | x :: xs => by
      have := beIdx_lt xs
      rw [beIdx_cons]
      rcases x with _ | _ <;> simp [List.length_cons, pow_succ] <;> omega

theorem getD_append_left {α : Type} (l1 l2 : List α) (d : α) (i : ℕ)
    (h : i < l1.length) : (l1 ++ l2).getD i d = l1.getD i d := by
  rw [List.getD_eq_getElem _ _ (by simp; omega), List.getD_eq_getElem _ _ h]
  exact List.getElem_append_left h

theorem getD_append_right {α : Type} (l1 l2 : List α) (d : α) (i : ℕ)
    (h : i < l2.length) : (l1 ++ l2).getD (l1.length + i) d = l2.getD i d := by
  rw [List.getD_eq_getElem _ _ (by simp; omega), List.getD_eq_getElem _ _ h]
  rw [List.getElem_append_right (by omega)]
  congr 1
  omega

theorem getD_map_mul {p : ℕ} (a : ZMod p) (l : List (ZMod p)) (i : ℕ)
    (h : i < l.length) :
    (l.map (fun t => a * t)).getD i 0 = a * l.getD i 0 := by
  rw [List.getD_eq_getElem _ _ (by simpa using h), List.getD_eq_getElem _ _ h]
  simp

/-- C8 (amended form): with the code's `chis` the table is indexed
big-endian — for every `r ∈ F^n` and bit string `b` of the same length, the
entry of `chis r` at index `Σ_i b_i·2^(n-1-i)` (first coordinate most
significant) is `Π_i (b_i·r_i + (1-b_i)·(1-r_i))`. -/
theorem chis_entry_big_endian {p : ℕ} :
    ∀ (r : List (ZMod p)) (b : List Bool), b.length = r.length →
      (chis r).getD (beIdx b) 0 = eqWeight r b
  | [], [], _ => by simp [chis, beIdx, eqWeight]
  | r :: rs, x :: xs, h => by
      have hlen : xs.length = rs.length := by simpa using h
      have hlt : beIdx xs < (chis rs).length := by
        rw [chis_length, ← hlen]; exact beIdx_lt xs
      have hmaplen : beIdx xs < ((chis rs).map (fun t => (1 - r) * t)).length := by
        simpa using hlt
      have hW : eqWeight (r :: rs) (x :: xs)
          = (if x then r else 1 - r) * eqWeight rs xs := by
        simp [eqWeight]
      rw [chis_cons, beIdx_cons, hlen, hW]
      rcases x with _ | _
      · have hidx : (if (false : Bool) then 1 else 0) * 2 ^ rs.length + beIdx xs
            = beIdx xs := by simp
        rw [hidx, getD_append_left _ _ _ _ hmaplen,
          getD_map_mul _ _ _ hlt, chis_entry_big_endian rs xs hlen]
        simp
      · have hidx : (if (true : Bool) then 1 else 0) * 2 ^ rs.length + beIdx xs
            = ((chis rs).map (fun t => (1 - r) * t)).length + beIdx xs := by
          simp [chis_length]
        rw [hidx, getD_append_right _ _ _ _ (by simpa using hlt),
          getD_map_mul _ _ _ hlt, chis_entry_big_endian rs xs hlen]
        simp

/-- Witness for `chis_entry_big_endian` at a concrete input. -/
theorem chis_entry_big_endian_witness :
    ([true, false] : List Bool).length = ([3, 5] : List (ZMod 101)).length
    ∧ (chis ([3, 5] : List (ZMod 101))).getD (beIdx [true, false]) 0
        = eqWeight ([3, 5] : List (ZMod 101)) [true, false] :=
  ⟨by decide, chis_entry_big_endian [3, 5] [true, false] (by decide)⟩

/-- C8 counterexample: the claimed little-endian indexing fails on the code's
`chis`.  At `r = (1, 0)` and `b = (1, 0)` the little-endian index is `1`,
`chis r` has `0` there, but `Π_i (b_i·r_i + (1-b_i)·(1-r_i)) = 1`. -/
theorem chis_little_endian_false :
    ¬ ((chis ([1, 0] : List (ZMod 101))).getD (leIdx [true, false]) 0
        = eqWeight ([1, 0] : List (ZMod 101)) [true, false]) := by
  decide

/-! ### univariate.rs : behaviour at the interpolation nodes -/

theorem val_natCast_len {p : ℕ} [NeZero p] (n : ℕ) (h : n < p) :
    ((n : ZMod p)).val = n := ZMod.val_cast_of_lt h

/-- C9: `eval_ule` is the identity on the interpolation nodes — for every
non-empty list of points and every `k < len(points)` (with the list shorter
than the field's characteristic, as any realizable list is),
`eval_ule points (F.from k) = points[k]`; moreover the fast path fires
exactly when the canonical representative of the evaluation argument is
below `len(points)`. -/
theorem eval_ule_at_nodes {p : ℕ} [NeZero p] (points : List (ZMod p)) (k : ℕ)
    (hk : k < points.length) (hp : points.length < p) :
    eval_ule points ((k : ℕ) : ZMod p) = points.getD k 0
    ∧ ∀ r : ZMod p, ule_fast points r = true ↔ r.val < points.length := by
  have hlen : ((points.length : ℕ) : ZMod p).val = points.length :=
    val_natCast_len _ hp
  have hfast : ∀ r : ZMod p, ule_fast points r = true ↔ r.val < points.length := by
    intro r
    unfold ule_fast
    rw [hlen]
    simp
  refine ⟨?_, hfast⟩
  have hkv : ((k : ℕ) : ZMod p).val = k := val_natCast_len _ (lt_trans hk hp)
  unfold eval_ule
  rw [if_pos (by rw [hfast]; omega), hkv]

/-- Witness for `eval_ule_at_nodes`: the specification's seed scenario
`points = [0,1,4]` at node `1` over `F = ZMod 101`. -/
theorem eval_ule_at_nodes_witness :
    eval_ule ([0, 1, 4] : List (ZMod 101)) ((1 : ℕ) : ZMod 101)
        = ([0, 1, 4] : List (ZMod 101)).getD 1 0
    ∧ ∀ r : ZMod 101, ule_fast ([0, 1, 4] : List (ZMod 101)) r = true ↔ r.val < 3 :=
  eval_ule_at_nodes [0, 1, 4] 1 (by decide) (by decide)

/-! ### Interpolation correctness of `eval_ule` at lengths 2 and 4 -/

theorem ule_fast_lt {p : ℕ} [NeZero p] (points : List (ZMod p)) (r : ZMod p)
    (hlen : points.length < p) :
    ule_fast points r = true ↔ r.val < points.length := by
  unfold ule_fast
  rw [val_natCast_len _ hlen]
  simp

/-- Evaluation of a linear univariate by values at `0, 1`:
`eval_ule [a, b] r = (1-r)*a + r*b` for every `r`. -/
theorem eval_ule_two {p : ℕ} [Fact p.Prime] (hp : 2 < p) (a b r : ZMod p) :
    eval_ule [a, b] r = (1 - r) * a + r * b := by
  haveI : NeZero p := ⟨by omega⟩
  have hlen : ([a, b] : List (ZMod p)).length < p := by simp; omega
  by_cases hf : ule_fast [a, b] r = true
  · have hr : r.val < 2 := by simpa using (ule_fast_lt [a, b] r hlen).mp hf
    have hrr : ((r.val : ℕ) : ZMod p) = r := ZMod.natCast_rightInverse r
    unfold eval_ule
    rw [if_pos hf]
    interval_cases hv : r.val
    · rw [← hrr]
      norm_num
    · rw [← hrr]
      norm_num
  · have hr : ¬ r.val < 2 := by
      intro hlt
      exact hf ((ule_fast_lt [a, b] r hlen).mpr (by simpa using hlt))
    have hr1 : r ≠ 1 := by
      intro h1
      rw [h1, ZMod.val_one_eq_one_mod] at hr
      rw [Nat.mod_eq_of_lt (by omega)] at hr
      omega
    have hsub1 : r - 1 ≠ 0 := sub_ne_zero.mpr hr1
    have hneg1 : (0 : ZMod p) - 1 ≠ 0 := by
      intro h
      have : (1 : ZMod p) = 0 := by linear_combination -h
      exact one_ne_zero this
    have hrange : List.range 1 = [0] := rfl
    unfold eval_ule
    rw [if_neg hf]
    simp only [List.length_cons, List.length_nil, hrange,
      List.map_cons, List.map_nil, List.prod_cons, List.prod_nil,
      List.foldl_cons, List.foldl_nil, List.getD_cons_zero, List.getD_cons_succ,
      Nat.cast_one, Nat.cast_zero, Nat.cast_ofNat,
      finv_eq_inv hp]
    norm_num
    field_simp
    ring

/-- A cubic as a function of its four coefficients. -/
def cubic {p : ℕ} (c0 c1 c2 c3 t : ZMod p) : ZMod p :=
  c0 + c1 * t + c2 * t ^ 2 + c3 * t ^ 3

/-- Evaluation of a cubic univariate by values at `0, 1, 2, 3`:
`eval_ule` applied to the four samples of a cubic reproduces the cubic at
every point (`p > 3` so the nodes are distinct and `2, 3` invertible). -/
theorem eval_ule_cubic {p : ℕ} [Fact p.Prime] (hp : 3 < p)
    (c0 c1 c2 c3 r : ZMod p) :
    eval_ule [cubic c0 c1 c2 c3 0, cubic c0 c1 c2 c3 1,
        cubic c0 c1 c2 c3 2, cubic c0 c1 c2 c3 3] r
      = cubic c0 c1 c2 c3 r := by
  haveI : NeZero p := ⟨by omega⟩
  have hp5 : 4 < p := by
    rcases Nat.lt_or_ge 4 p with h | h
    · exact h
    · exfalso
      have hp4 : p = 4 := by omega
      have := (Fact.out : p.Prime)
      rw [hp4] at this
      norm_num at this
  set pts : List (ZMod p) := [cubic c0 c1 c2 c3 0, cubic c0 c1 c2 c3 1,
      cubic c0 c1 c2 c3 2, cubic c0 c1 c2 c3 3] with hpts
  have hlen : pts.length < p := by simp [hpts]; omega
  by_cases hf : ule_fast pts r = true
  · have hr : r.val < 4 := by simpa [hpts] using (ule_fast_lt pts r hlen).mp hf
    have hrr : ((r.val : ℕ) : ZMod p) = r := ZMod.natCast_rightInverse r
    unfold eval_ule
    rw [if_pos hf]
    interval_cases hv : r.val
    · rw [← hrr, hpts]
      norm_num
    · rw [← hrr, hpts]
      norm_num
    · rw [← hrr, hpts]
      norm_num
    · rw [← hrr, hpts]
      norm_num
  · have hrge : ¬ r.val < 4 := by
      intro hlt
      exact hf ((ule_fast_lt pts r hlen).mpr (by simpa [hpts] using hlt))
    have hne : ∀ k : ℕ, k < 4 → r ≠ ((k : ℕ) : ZMod p) := by
      intro k hk h
      rw [h, val_natCast_len k (by omega)] at hrge
      omega
    have h1 : r - 1 ≠ 0 := sub_ne_zero.mpr (by simpa using hne 1 (by omega))
    have h2 : r - 2 ≠ 0 := by
      have := hne 2 (by omega)
      rw [Nat.cast_ofNat] at this
      exact sub_ne_zero.mpr this
    have h3 : r - 3 ≠ 0 := by
      have := hne 3 (by omega)
      rw [Nat.cast_ofNat] at this
      exact sub_ne_zero.mpr this
    have hdvd : ∀ k : ℕ, 0 < k → k < p → ((k : ℕ) : ZMod p) ≠ 0 := by
      intro k hk hkp h
      rw [ZMod.natCast_zmod_eq_zero_iff_dvd] at h
      exact absurd (Nat.le_of_dvd hk h) (by omega)
    have hc2 : (2 : ZMod p) ≠ 0 := by
      have := hdvd 2 (by omega) (by omega)
      simpa using this
    have hc3 : (3 : ZMod p) ≠ 0 := by
      have := hdvd 3 (by omega) (by omega)
      simpa using this
    have h6 : (6 : ZMod p) ≠ 0 := by
      rw [show (6 : ZMod p) = 2 * 3 by norm_num]
      exact mul_ne_zero hc2 hc3
    have hm2 : (r - 2) * 2 ≠ 0 := mul_ne_zero h2 hc2
    have hm3 : (r - 3) * 3 ≠ 0 := mul_ne_zero h3 hc3
    have hrange : List.range 3 = [0, 1, 2] := rfl
    unfold eval_ule
    rw [if_neg hf, hpts]
    simp only [List.length_cons, List.length_nil, hrange,
      List.map_cons, List.map_nil, List.prod_cons, List.prod_nil,
      List.foldl_cons, List.foldl_nil, List.getD_cons_zero, List.getD_cons_succ,
      Nat.reduceAdd, Nat.reduceSub, Nat.cast_one, Nat.cast_zero, Nat.cast_ofNat,
      finv_eq_inv (show 2 < p by omega), mul_one]
    have e0 : ((r - 1) * ((r - 2) * (r - 3)) * ((0 - 1) * ((0 - 2) * (0 - 3)))⁻¹
        : ZMod p) = -((r - 1) * (r - 2) * (r - 3)) * 6⁻¹ := by
      rw [show ((0 - 1) * ((0 - 2) * (0 - 3)) : ZMod p) = -6 by ring, inv_neg]
      ring
    have e1 : ((r - 1) * ((r - 2) * (r - 3)) * ((0 - 1) * ((0 - 2) * (0 - 3)))⁻¹
          * (r - 0) * (r - 1)⁻¹ * (0 - 3) : ZMod p)
        = r * (r - 2) * (r - 3) * 2⁻¹ := by
      rw [e0]
      field_simp
      ring
    have e2 : ((r - 1) * ((r - 2) * (r - 3)) * ((0 - 1) * ((0 - 2) * (0 - 3)))⁻¹
          * (r - 0) * (r - 1)⁻¹ * (0 - 3) * (r - 1) * ((r - 2) * 2)⁻¹ * (0 - 2)
          : ZMod p)
        = -(r * (r - 1) * (r - 3)) * 2⁻¹ := by
      rw [e1]
      field_simp
      ring
    have e3 : ((r - 1) * ((r - 2) * (r - 3)) * ((0 - 1) * ((0 - 2) * (0 - 3)))⁻¹
          * (r - 0) * (r - 1)⁻¹ * (0 - 3) * (r - 1) * ((r - 2) * 2)⁻¹ * (0 - 2)
          * (r - 2) * ((r - 3) * 3)⁻¹ * (0 - 1) : ZMod p)
        = r * (r - 1) * (r - 2) * 6⁻¹ := by
      rw [e2]
      field_simp
      ring
    rw [e3, e2, e1, e0]
    simp only [cubic]
    field_simp
    ring

/-! ### Structural facts about multilinear evaluation -/

theorem listSum_range {p : ℕ} (f : ℕ → ZMod p) :
    ∀ n : ℕ, ((List.range n).map f).sum = ∑ i ∈ Finset.range n, f i
  | 0 => by simp
  | n + 1 => by
      rw [List.range_succ, List.map_append, List.sum_append,
        Finset.sum_range_succ, listSum_range f n]
      simp

theorem set_variable_length {p : ℕ} (m : List (ZMod p)) (r : ZMod p) :
    (set_variable m r).length = m.length / 2 := by
  unfold set_variable
  rw [List.length_zipWith, List.length_take, List.length_drop]
  omega

theorem set_variable_getD {p : ℕ} (m : List (ZMod p)) (r : ZMod p) (i : ℕ)
    (hi : i < m.length / 2) :
    (set_variable m r).getD i 0
      = (1 - r) * m.getD i 0 + r * m.getD (i + m.length / 2) 0 := by
  have hz : i < (set_variable m r).length := by rw [set_variable_length]; omega
  have hzz : i < (List.zipWith (fun a b => (1 - r) * a + r * b)
      (m.take (m.length / 2)) (m.drop (m.length / 2))).length := hz
  show (List.zipWith (fun a b => (1 - r) * a + r * b)
      (m.take (m.length / 2)) (m.drop (m.length / 2))).getD i 0 = _
  rw [List.getD_eq_getElem _ _ hzz, List.getElem_zipWith,
    List.getElem_take, List.getElem_drop,
    ← List.getD_eq_getElem m 0 (show i < m.length by omega),
    ← List.getD_eq_getElem m 0 (show m.length / 2 + i < m.length by omega)]
  rw [Nat.add_comm (m.length / 2) i]

theorem eval_chis_zip_affine {p : ℕ} (r : ZMod p) :
    ∀ (c A B : List (ZMod p)), c.length = A.length → c.length = B.length →
      eval_chis c (List.zipWith (fun a b => (1 - r) * a + r * b) A B)
        = (1 - r) * eval_chis c A + r * eval_chis c B
  | [], [], [], _, _ => by simp [eval_chis]
  | [], a :: as', _, hA, _ => by simp at hA
  | [], [], b :: bs, _, hB => by simp at hB
  | x :: xs, [], _, hA, _ => by simp at hA
  | x :: xs, a :: as', [], _, hB => by simp at hB
  | x :: xs, a :: as', b :: bs, hA, hB => by
      rw [List.zipWith_cons_cons, eval_chis_cons, eval_chis_cons, eval_chis_cons,
        eval_chis_zip_affine r xs as' bs (by simpa using hA) (by simpa using hB)]
      ring

/-- Fixing a variable commutes with multilinear evaluation: with the code's
big-endian `chis`, prepending a point coordinate corresponds to
`set_variable`. -/
theorem eval_mle_cons {p : ℕ} (r : ZMod p) (z : List (ZMod p))
    (m : List (ZMod p)) (hm : m.length = 2 ^ (z.length + 1)) :
    eval_mle (r :: z) m = eval_mle z (set_variable m r) := by
  unfold eval_mle
  rw [chis_cons]
  have h2 : (2 : ℕ) ^ (z.length + 1) = 2 ^ z.length * 2 := pow_succ 2 z.length
  have hhalf : m.length / 2 = 2 ^ z.length := by omega
  have htake : (m.take (m.length / 2)).length = 2 ^ z.length := by
    rw [List.length_take]
    omega
  have hdrop : (m.drop (m.length / 2)).length = 2 ^ z.length := by
    rw [List.length_drop]
    omega
  conv_lhs => rw [show m = m.take (m.length / 2) ++ m.drop (m.length / 2) from
    (List.take_append_drop _ m).symm]
  rw [eval_chis_append _ _ _ _ (by rw [List.length_map, chis_length, htake]),
    eval_chis_map_left, eval_chis_map_left]
  show _ = eval_chis (chis z)
    (List.zipWith (fun a b => (1 - r) * a + r * b)
      (m.take (m.length / 2)) (m.drop (m.length / 2)))
  rw [eval_chis_zip_affine r (chis z) _ _ (by rw [chis_length, htake])
    (by rw [chis_length, hdrop])]

theorem eval_mle_nil {p : ℕ} (m : List (ZMod p)) :
    eval_mle [] m = m.headD 0 := by
  cases m with
  | nil => rfl
  | cons a t => simp [eval_mle, chis, eval_chis]

theorem foldl_set_variable_headD {p : ℕ} :
    ∀ (rs : List (ZMod p)) (m : List (ZMod p)), m.length = 2 ^ rs.length →
      (rs.foldl set_variable m).headD 0 = eval_mle rs m
  | [], m, hm => by
      rw [List.foldl_nil, eval_mle_nil]
  | r :: rs, m, hm => by
      rw [List.foldl_cons,
        foldl_set_variable_headD rs (set_variable m r)
          (by rw [set_variable_length, hm, List.length_cons, pow_succ]; omega),
        eval_mle_cons r rs m (by simpa using hm)]

theorem eval_eq_cons {p : ℕ} (x y : ZMod p) (xs ys : List (ZMod p)) :
    eval_eq (x :: xs) (y :: ys)
      = (x * y + (1 - x) * (1 - y)) * eval_eq xs ys := by
  unfold eval_eq
  rw [List.length_cons, List.range_succ_eq_map, List.map_cons, List.prod_cons,
    List.map_map]
  rw [show List.map ((fun i => (x :: xs).getD i 0 * (y :: ys).getD i 0
        + (1 - (x :: xs).getD i 0) * (1 - (y :: ys).getD i 0)) ∘ Nat.succ)
        (List.range xs.length)
      = List.map (fun i => xs.getD i 0 * ys.getD i 0
        + (1 - xs.getD i 0) * (1 - ys.getD i 0)) (List.range xs.length) from
    List.map_congr_left (fun i _ => by simp [Function.comp])]
  simp

/-- The inner product of two chi tables is the equality polynomial at the
two points. -/
theorem eval_chis_chis {p : ℕ} :
    ∀ (a b : List (ZMod p)), a.length = b.length →
      eval_chis (chis a) (chis b) = eval_eq b a
  | [], [], _ => by simp [chis, eval_chis, eval_eq]
  | [], b :: bs, h => by simp at h
  | a :: as', [], h => by simp at h
  | a :: as', b :: bs, h => by
      have hlen : as'.length = bs.length := by simpa using h
      rw [chis_cons, chis_cons,
        eval_chis_append _ _ _ _ (by rw [List.length_map, List.length_map,
          chis_length, chis_length, hlen]),
        eval_chis_map_left, eval_chis_map_right, eval_chis_map_left,
        eval_chis_map_right, eval_chis_chis as' bs hlen, eval_eq_cons]
      ring

/-- Appending a point coordinate corresponds to splitting the table into its
even- and odd-indexed halves (`factor`). -/
theorem eval_chis_chisStep {p : ℕ} (s : ZMod p) :
    ∀ (c m : List (ZMod p)), m.length = 2 * c.length →
      eval_chis (chisStep c s) m
        = (1 - s) * eval_chis c (factor m).1 + s * eval_chis c (factor m).2
  | [], m, hm => by
      have : m = [] := List.length_eq_zero.mp (by simpa using hm)
      subst this
      simp [eval_chis, chisStep, factor]
  | x :: xs, [], hm => by
      simp only [List.length_nil, List.length_cons] at hm
      omega
  | x :: xs, [a], hm => by
      simp only [List.length_cons, List.length_nil] at hm
      omega
  | x :: xs, a :: b :: m', hm => by
      have hm' : m'.length = 2 * xs.length := by
        simp only [List.length_cons] at hm
        omega
      have hstep : chisStep (x :: xs) s
          = (1 - s) * x :: s * x :: chisStep xs s := by
        simp [chisStep]
      have hfac : factor (a :: b :: m')
          = (a :: (factor m').1, b :: (factor m').2) := by
        simp [factor]
      rw [hstep, hfac, eval_chis_cons, eval_chis_cons,
        eval_chis_chisStep s xs m' hm']
      simp only
      rw [eval_chis_cons, eval_chis_cons]
      ring

theorem eval_mle_snoc {p : ℕ} (s : ZMod p) (z : List (ZMod p))
    (m : List (ZMod p)) (hm : m.length = 2 ^ (z.length + 1)) :
    eval_mle (z ++ [s]) m
      = (1 - s) * eval_mle z (factor m).1 + s * eval_mle z (factor m).2 := by
  unfold eval_mle
  rw [chis_snoc, eval_chis_chisStep s (chis z) m
    (by rw [chis_length, hm, pow_succ]; omega)]

/-! ### The product-tree layers -/

theorem pairProd_length {p : ℕ} :
    ∀ l : List (ZMod p), (pairProd l).length = l.length / 2
  | [] => by simp [pairProd]
  | [a] => by simp [pairProd]
  | a :: b :: t => by
      simp only [pairProd, List.length_cons, pairProd_length t]
      omega

theorem pairProd_prod {p : ℕ} :
    ∀ l : List (ZMod p), l.length % 2 = 0 → (pairProd l).prod = l.prod
  | [], _ => rfl
  | [a], h => by simp at h
  | a :: b :: t, h => by
      have ht : t.length % 2 = 0 := by simp only [List.length_cons] at h; omega
      simp only [pairProd, List.prod_cons, pairProd_prod t ht]
      ring

theorem factor_length_left {p : ℕ} :
    ∀ l : List (ZMod p), (factor l).1.length = l.length / 2
  | [] => by simp [factor]
  | [a] => by simp [factor]
  | a :: b :: t => by
      simp only [factor, List.length_cons, factor_length_left t]
      omega

theorem factor_length_right {p : ℕ} :
    ∀ l : List (ZMod p), (factor l).2.length = l.length / 2
  | [] => by simp [factor]
  | [a] => by simp [factor]
  | a :: b :: t => by
      simp only [factor, List.length_cons, factor_length_right t]
      omega

theorem pairProd_eq_zipWith {p : ℕ} :
    ∀ l : List (ZMod p),
      pairProd l = List.zipWith (· * ·) (factor l).1 (factor l).2
  | [] => rfl
  | [a] => rfl
  | a :: b :: t => by
      simp only [pairProd, factor, pairProd_eq_zipWith t]
      rfl

theorem getD_zipWith_mul {p : ℕ} (A B : List (ZMod p)) (i : ℕ)
    (hiA : i < A.length) (hiB : i < B.length) :
    (List.zipWith (· * ·) A B).getD i 0 = A.getD i 0 * B.getD i 0 := by
  have hz : i < (List.zipWith (· * ·) A B).length := by
    rw [List.length_zipWith]; omega
  rw [List.getD_eq_getElem _ _ hz, List.getElem_zipWith,
    ← List.getD_eq_getElem A 0 hiA, ← List.getD_eq_getElem B 0 hiB]

/-! ### The round polynomial `g` and `derive_points` -/

/-- The "true sum" `Σ_i A_i·B_i·C_i` of a three-mle product. -/
def tsum3 {p : ℕ} (A B C : List (ZMod p)) : ZMod p :=
  ∑ i ∈ Finset.range A.length, A.getD i 0 * B.getD i 0 * C.getD i 0

theorem eval_chis_eq_sum {p : ℕ} :
    ∀ (c e : List (ZMod p)), c.length = e.length →
      eval_chis c e = ∑ i ∈ Finset.range c.length, c.getD i 0 * e.getD i 0
  | [], [], _ => by simp [eval_chis]
  | [], b :: bs, h => by simp at h
  | a :: as', [], h => by simp at h
  | x :: xs, y :: ys, h => by
      rw [eval_chis_cons, eval_chis_eq_sum xs ys (by simpa using h),
        List.length_cons, Finset.sum_range_succ']
      simp only [List.getD_cons_succ, List.getD_cons_zero]
      ring

/-- The claim fed to a non-root layer's sumcheck is the true sum of
`eq · L · R`. -/
theorem eval_chis_pairProd {p : ℕ} (c lay : List (ZMod p))
    (hlen : (pairProd lay).length = c.length) :
    eval_chis c (pairProd lay) = tsum3 c (factor lay).1 (factor lay).2 := by
  rw [eval_chis_eq_sum c (pairProd lay) hlen.symm]
  unfold tsum3
  apply Finset.sum_congr rfl
  intro i hi
  rw [Finset.mem_range] at hi
  have hip : i < (pairProd lay).length := by omega
  have hil : i < (factor lay).1.length := by
    rw [factor_length_left, ← pairProd_length]
    omega
  have hir : i < (factor lay).2.length := by
    rw [factor_length_right, ← pairProd_length]
    omega
  rw [pairProd_eq_zipWith, getD_zipWith_mul _ _ i hil hir, mul_assoc]

/-- Folding all three mles turns the round polynomial's value at `t` into
the next true sum. -/
theorem gEval_fold {p : ℕ} (A B C : List (ZMod p)) (t : ZMod p)
    (hB : B.length = A.length) (hC : C.length = A.length) :
    gEval [A, B, C] t
      = tsum3 (set_variable A t) (set_variable B t) (set_variable C t) := by
  unfold gEval tsum3
  simp only [List.headD_cons]
  rw [listSum_range, set_variable_length]
  apply Finset.sum_congr rfl
  intro i hi
  rw [Finset.mem_range] at hi
  rw [set_variable_getD A t i hi, set_variable_getD B t i (by omega),
    set_variable_getD C t i (by omega), hB, hC]
  simp only [List.map_cons, List.map_nil, List.prod_cons, List.prod_nil]
  ring

/-- Splitting the true sum into the low and high halves:
the true sum is `g(0) + g(1)`. -/
theorem tsum3_split {p : ℕ} (A B C : List (ZMod p))
    (hB : B.length = A.length) (hC : C.length = A.length)
    (heven : A.length % 2 = 0) :
    tsum3 A B C = gEval [A, B, C] 0 + gEval [A, B, C] 1 := by
  unfold tsum3 gEval
  simp only [List.headD_cons]
  rw [listSum_range, listSum_range]
  rw [show (∑ i ∈ Finset.range A.length, A.getD i 0 * B.getD i 0 * C.getD i 0)
      = ∑ i ∈ Finset.range (A.length / 2 + A.length / 2),
          A.getD i 0 * B.getD i 0 * C.getD i 0 from by
    rw [show A.length / 2 + A.length / 2 = A.length from by omega]]
  rw [Finset.sum_range_add]
  congr 1
  · apply Finset.sum_congr rfl
    intro i hi
    simp only [List.map_cons, List.map_nil, List.prod_cons, List.prod_nil]
    ring
  · apply Finset.sum_congr rfl
    intro i hi
    rw [Finset.mem_range] at hi
    simp only [List.map_cons, List.map_nil, List.prod_cons, List.prod_nil]
    rw [show A.length / 2 + i = i + A.length / 2 from by omega]
    ring

/-- The round polynomial is a cubic in `t`. -/
theorem gEval_is_cubic {p : ℕ} (A B C : List (ZMod p)) :
    ∃ c0 c1 c2 c3 : ZMod p, ∀ t, gEval [A, B, C] t = cubic c0 c1 c2 c3 t := by
  classical
  refine ⟨∑ i ∈ Finset.range (A.length / 2),
      A.getD i 0 * B.getD i 0 * C.getD i 0,
    ∑ i ∈ Finset.range (A.length / 2),
      ((A.getD (i + A.length / 2) 0 - A.getD i 0) * B.getD i 0 * C.getD i 0
        + A.getD i 0 * (B.getD (i + A.length / 2) 0 - B.getD i 0) * C.getD i 0
        + A.getD i 0 * B.getD i 0 * (C.getD (i + A.length / 2) 0 - C.getD i 0)),
    ∑ i ∈ Finset.range (A.length / 2),
      ((A.getD (i + A.length / 2) 0 - A.getD i 0)
          * (B.getD (i + A.length / 2) 0 - B.getD i 0) * C.getD i 0
        + (A.getD (i + A.length / 2) 0 - A.getD i 0) * B.getD i 0
          * (C.getD (i + A.length / 2) 0 - C.getD i 0)
        + A.getD i 0 * (B.getD (i + A.length / 2) 0 - B.getD i 0)
          * (C.getD (i + A.length / 2) 0 - C.getD i 0)),
    ∑ i ∈ Finset.range (A.length / 2),
      (A.getD (i + A.length / 2) 0 - A.getD i 0)
        * (B.getD (i + A.length / 2) 0 - B.getD i 0)
        * (C.getD (i + A.length / 2) 0 - C.getD i 0), ?_⟩
  intro t
  unfold gEval cubic
  simp only [List.headD_cons, List.map_cons, List.map_nil, List.prod_cons,
    List.prod_nil]
  rw [listSum_range, Finset.sum_mul, Finset.sum_mul, Finset.sum_mul,
    ← Finset.sum_add_distrib, ← Finset.sum_add_distrib, ← Finset.sum_add_distrib]
  apply Finset.sum_congr rfl
  intro i hi
  ring

/-- The four samples of the round polynomial. -/
def gSamples {p : ℕ} (A B C : List (ZMod p)) : List (ZMod p) :=
  [gEval [A, B, C] 0, gEval [A, B, C] 1, gEval [A, B, C] 2, gEval [A, B, C] 3]

/-- `eval_ule` on the honest samples reproduces the round polynomial. -/
theorem eval_ule_gSamples {p : ℕ} [Fact p.Prime] (hp : 3 < p)
    (A B C : List (ZMod p)) (r : ZMod p) :
    eval_ule (gSamples A B C) r = gEval [A, B, C] r := by
  obtain ⟨c0, c1, c2, c3, hc⟩ := gEval_is_cubic A B C
  unfold gSamples
  rw [hc 0, hc 1, hc 2, hc 3, hc r]
  exact eval_ule_cubic hp c0 c1 c2 c3 r

/-- On a true claim, `derive_points` produces exactly the honest samples. -/
theorem derive_points_three {p : ℕ} (A B C : List (ZMod p)) (claim : ZMod p)
    (hhalf : A.length / 2 ≠ 0)
    (hclaim : claim = gEval [A, B, C] 0 + gEval [A, B, C] 1) :
    derive_points [A, B, C] claim = gSamples A B C := by
  unfold derive_points gSamples
  dsimp only
  have hrange : List.range (([A, B, C] : List (List (ZMod p))).length + 1)
      = [0, 1, 2, 3] := rfl
  rw [hrange]
  simp only [List.map_cons, List.map_nil, List.headD_cons]
  norm_num
  rw [if_neg hhalf, hclaim]
  ring


/-! ### Honest-prover sumcheck: transcript sync and completeness -/

theorem foldl_set_variable_length {p : ℕ} :
    ∀ (rs : List (ZMod p)) (m : List (ZMod p)),
      (rs.foldl set_variable m).length = m.length / 2 ^ rs.length
  | [], m => by simp
  | r :: rs, m => by
      rw [List.foldl_cons, foldl_set_variable_length rs (set_variable m r),
        set_variable_length, List.length_cons, Nat.div_div_eq_div_mul,
        pow_succ, Nat.mul_comm]

theorem getD_zero_headD {p : ℕ} (l : List (ZMod p)) :
    l.getD 0 0 = l.headD 0 := by
  cases l <;> rfl

/-- The honest sumcheck round loop: the prover's and verifier's loops walk
in lockstep — same challenges, same history — and the invariant "the open
round polynomial is the honest sample list" is maintained. -/
theorem scLoop_sync {p : ℕ} [Fact p.Prime] (hp : 3 < p) (O : Oracle p) :
    ∀ (k : ℕ) (A B C : List (ZMod p)) (h : List (TEvent p)),
      A.length = 2 ^ (k + 1) → B.length = 2 ^ (k + 1) → C.length = 2 ^ (k + 1) →
      ∃ ps rs h',
        scProveLoop O [A, B, C] (gSamples A B C) h k
          = (ps, rs, [rs.foldl set_variable A, rs.foldl set_variable B,
              rs.foldl set_variable C],
            gSamples (rs.foldl set_variable A) (rs.foldl set_variable B)
              (rs.foldl set_variable C), h')
        ∧ scVerifyLoop O 3 (gSamples A B C) ps h = some (rs, h')
        ∧ rs.length = k ∧ ps.length = k
        ∧ (gSamples A B C :: ps).getD ps.length []
            = gSamples (rs.foldl set_variable A) (rs.foldl set_variable B)
              (rs.foldl set_variable C)
  | 0, A, B, C, h, hA, hB, hC => by
      refine ⟨[], [], h, ?_, rfl, rfl, rfl, rfl⟩
      simp [scProveLoop]
  | k + 1, A, B, C, h, hA, hB, hC => by
      have hpow : (2 : ℕ) ^ (k + 2) = 2 ^ (k + 1) * 2 := pow_succ 2 (k + 1)
      have hpow1 : (2 : ℕ) ^ (k + 1) = 2 ^ k * 2 := pow_succ 2 k
      have hpos : 0 < (2 : ℕ) ^ k := pow_pos (by norm_num) k
      set r := O (h ++ [TEvent.chal Label.sumcheck_challenge]) with hrdef
      set A' := set_variable A r with hAd
      set B' := set_variable B r with hBd
      set C' := set_variable C r with hCd
      have hA' : A'.length = 2 ^ (k + 1) := by
        rw [hAd, set_variable_length, hA]
        omega
      have hB' : B'.length = 2 ^ (k + 1) := by
        rw [hBd, set_variable_length, hB]
        omega
      have hC' : C'.length = 2 ^ (k + 1) := by
        rw [hCd, set_variable_length, hC]
        omega
      have hBA : B.length = A.length := by rw [hA, hB]
      have hCA : C.length = A.length := by rw [hA, hC]
      have hlast : eval_ule (gSamples A B C) r = tsum3 A' B' C' := by
        rw [eval_ule_gSamples hp, gEval_fold A B C r hBA hCA]
      have hsplit : tsum3 A' B' C'
          = gEval [A', B', C'] 0 + gEval [A', B', C'] 1 :=
        tsum3_split A' B' C' (by rw [hA', hB']) (by rw [hA', hC'])
          (by rw [hA']; omega)
      have hpts : derive_points [A', B', C'] (eval_ule (gSamples A B C) r)
          = gSamples A' B' C' := by
        apply derive_points_three
        · rw [hA']
          omega
        · rw [hlast]
          exact hsplit
      obtain ⟨ps', rs', h'', hprove, hverify, hlenr, hlenp, hlast'⟩ :=
        scLoop_sync hp O k A' B' C'
          ((h ++ [TEvent.chal Label.sumcheck_challenge])
            ++ pointsEvents Label.sumcheck_points (gSamples A' B' C'))
          hA' hB' hC'
      refine ⟨gSamples A' B' C' :: ps', r :: rs', h'', ?_, ?_, ?_, ?_, ?_⟩
      · show scProveLoop O [A, B, C] (gSamples A B C) h (k + 1) = _
        rw [scProveLoop]
        simp only [List.map_cons, List.map_nil, ← hrdef, ← hAd, ← hBd,
          ← hCd, hpts, hprove, List.foldl_cons]
      · show scVerifyLoop O 3 (gSamples A B C) (gSamples A' B' C' :: ps') h = _
        rw [scVerifyLoop]
        simp only [← hrdef]
        rw [if_pos ?side]
        case side =>
          refine ⟨rfl, by norm_num [gSamples], ?_⟩
          rw [hlast, hsplit]
          simp [gSamples]
        rw [hverify]
      · simp [hlenr]
      · simp [hlenp]
      · show (gSamples A B C :: gSamples A' B' C' :: ps').getD
            (gSamples A' B' C' :: ps').length [] = _
        rw [List.length_cons, List.getD_cons_succ, hlast']
        simp only [List.foldl_cons]

/-- Sumcheck completeness for three mles (degree 3): on a true claim the
honest prover's proof replays on the verifier with the same challenges and
final history, every check passing, and the expected final evaluation is the
product of the three mles' multilinear evaluations at the challenge point. -/
theorem sc_complete {p : ℕ} [Fact p.Prime] (hp : 3 < p) (O : Oracle p)
    (n : ℕ) (hn : 1 ≤ n) (A B C : List (ZMod p)) (h0 : List (TEvent p))
    (hA : A.length = 2 ^ n) (hB : B.length = 2 ^ n) (hC : C.length = 2 ^ n)
    (claim : ZMod p) (hclaim : claim = tsum3 A B C) :
    ∃ polys rs h',
      sc_prove O claim [A, B, C] h0 = (polys, rs, h')
      ∧ sc_verify O claim polys 3 n h0
          = some (rs, eval_mle rs A * eval_mle rs B * eval_mle rs C, h')
      ∧ rs.length = n ∧ polys.length = n := by
  have hpow1 : (2 : ℕ) ^ n = 2 ^ (n - 1) * 2 := by
    rw [← pow_succ]
    congr 1
    omega
  have hpos : 0 < (2 : ℕ) ^ (n - 1) := pow_pos (by norm_num) (n - 1)
  have hrounds : ilog2 ([A, B, C].headD []).length = n := by
    rw [List.headD_cons, hA, ilog2_two_pow]
  have hdeg : (([A, B, C] : List (List (ZMod p))).length : ℕ) = 3 := rfl
  have hsplit : tsum3 A B C = gEval [A, B, C] 0 + gEval [A, B, C] 1 :=
    tsum3_split A B C (by rw [hA, hB]) (by rw [hA, hC]) (by rw [hA]; omega)
  have hpts0 : derive_points [A, B, C] claim = gSamples A B C := by
    apply derive_points_three
    · rw [hA]
      omega
    · rw [hclaim]
      exact hsplit
  have hA1 : A.length = 2 ^ ((n - 1) + 1) := by rw [hA]; congr 1; omega
  have hB1 : B.length = 2 ^ ((n - 1) + 1) := by rw [hB]; congr 1; omega
  have hC1 : C.length = 2 ^ ((n - 1) + 1) := by rw [hC]; congr 1; omega
  obtain ⟨ps', rs', h3, hprove, hverify, hlenr, hlenp, hlastp⟩ :=
    scLoop_sync hp O (n - 1) A B C
      (h0 ++ [TEvent.scalar Label.sumcheck_claim claim,
        TEvent.scalar Label.sumcheck_degree ((3 : ℕ) : ZMod p),
        TEvent.scalar Label.sumcheck_rounds ((n : ℕ) : ZMod p)]
        ++ pointsEvents Label.sumcheck_points (gSamples A B C)) hA1 hB1 hC1
  set rFin := O (h3 ++ [TEvent.chal Label.sumcheck_challenge]) with hrfin
  set rsAll := rs' ++ [rFin] with hrsall
  have hrsn : rsAll.length = n := by
    rw [hrsall, List.length_append, hlenr, List.length_cons, List.length_nil]
    omega
  have hfoldlen : ∀ m : List (ZMod p), m.length = 2 ^ n →
      (rs'.foldl set_variable m).length = 2 := by
    intro m hm
    rw [foldl_set_variable_length, hm, hlenr, hpow1,
      Nat.mul_div_cancel_left 2 hpos]
  have hfoldA := hfoldlen A hA
  have hfoldB := hfoldlen B hB
  have hfoldC := hfoldlen C hC
  have hfull : scProveFull O claim [A, B, C] h0
      = { polys := gSamples A B C :: ps'
          rs := rsAll
          final_terms := [(set_variable (rs'.foldl set_variable A) rFin).headD 0,
            (set_variable (rs'.foldl set_variable B) rFin).headD 0,
            (set_variable (rs'.foldl set_variable C) rFin).headD 0]
          hist := h3 ++ [TEvent.chal Label.sumcheck_challenge] } := by
    unfold scProveFull
    simp only [hrounds, hdeg, hpts0, hprove]
    rfl
  have hfinal : eval_ule (gSamples (rs'.foldl set_variable A)
        (rs'.foldl set_variable B) (rs'.foldl set_variable C)) rFin
      = eval_mle rsAll A * eval_mle rsAll B * eval_mle rsAll C := by
    rw [eval_ule_gSamples hp,
      gEval_fold _ _ _ rFin (by rw [hfoldA, hfoldB]) (by rw [hfoldA, hfoldC])]
    unfold tsum3
    rw [set_variable_length, hfoldA]
    norm_num
    have hone : ∀ m : List (ZMod p), m.length = 2 ^ n →
        (set_variable (rs'.foldl set_variable m) rFin).getD 0 0
          = eval_mle rsAll m := by
      intro m hm
      rw [getD_zero_headD,
        show set_variable (rs'.foldl set_variable m) rFin
          = rsAll.foldl set_variable m from by
            rw [hrsall, List.foldl_append, List.foldl_cons, List.foldl_nil],
        foldl_set_variable_headD rsAll m (by rw [hm, hrsn])]
    simp only [← List.getD_eq_getElem?_getD]
    rw [hone A hA, hone B hB, hone C hC]
  refine ⟨gSamples A B C :: ps', rsAll,
    h3 ++ [TEvent.chal Label.sumcheck_challenge], ?_, ?_, hrsn,
    by simp only [List.length_cons, hlenp]; omega⟩
  · unfold sc_prove
    rw [hfull]
  · unfold sc_verify
    simp only
    rw [if_pos ?cond]
    case cond =>
      refine ⟨by norm_num [gSamples], ?_, ?_⟩
      · rw [hclaim, hsplit]
        simp [gSamples]
      · simp only [List.length_cons, hlenp]
        omega
    rw [hverify]
    simp only
    rw [if_neg (by omega : ¬ n = 0),
      if_pos (by simp only [List.length_cons, hlenp]; omega)]
    have hgetD : (gSamples A B C :: ps').getD (n - 1) []
        = gSamples (rs'.foldl set_variable A) (rs'.foldl set_variable B)
            (rs'.foldl set_variable C) := by
      rw [← hlenp, hlastp]
    rw [hgetD, hfinal]
    have hrs : List.take (n - 1) rs' ++ List.replicate (n - 1 - rs'.length) 0
        ++ [rFin] = rsAll := by
      rw [hlenr, List.take_of_length_le (by rw [hlenr]), Nat.sub_self,
        List.replicate_zero, List.append_nil, hrsall]
    rw [hrs]

/-! ### The product tree as a chain of pair-product layers -/

/-- The chain condition linking consecutive layers of the product tree:
each layer is the pair product of the one after it, and each layer is
twice the size of the one before it. -/
def LayerChain {p : ℕ} : List (ZMod p) → List (List (ZMod p)) → Prop
  | _, [] => True
  | prev, x :: xs => prev = pairProd x ∧ x.length = 2 * prev.length ∧ LayerChain x xs

theorem getLastD_snoc {α : Type} :
    ∀ (l : List α) (a d : α), (l ++ [a]).getLastD d = a
  | [], a, d => rfl
  | x :: xs, a, d => by
      rw [List.cons_append, List.getLastD_cons, getLastD_snoc xs a x]

theorem getLastD_irrel {α : Type} (x : α) (xs : List α) (d e : α) :
    (x :: xs).getLastD d = (x :: xs).getLastD e := by
  rw [List.getLastD_cons, List.getLastD_cons]

theorem LayerChain_snoc {p : ℕ} :
    ∀ (rest : List (List (ZMod p))) (top w : List (ZMod p)),
      LayerChain top rest → rest.getLastD top = pairProd w →
      w.length = 2 * (rest.getLastD top).length →
      LayerChain top (rest ++ [w])
  | [], top, w, hc, hlast, hw => by
      show top = pairProd w ∧ w.length = 2 * top.length ∧ LayerChain w []
      exact ⟨hlast, hw, trivial⟩
  | x :: xs, top, w, hc, hlast, hw => by
      obtain ⟨h1, h2, h3⟩ := hc
      have hlast2 : xs.getLastD x = pairProd w := by
        rw [List.getLastD_cons] at hlast
        exact hlast
      have hw2 : w.length = 2 * (xs.getLastD x).length := by
        rw [List.getLastD_cons] at hw
        exact hw
      exact ⟨h1, h2, LayerChain_snoc xs x w h3 hlast2 hw2⟩

/-- Shape of the layer list built by `computeTreeAux`: a two-element root,
`k` further layers forming a pair-product chain whose last element is the
witness, and a root whose product is the witness's product. -/
theorem computeTreeAux_shape {p : ℕ} :
    ∀ (k : ℕ) (w : List (ZMod p)), w.length = 2 ^ (k + 1) →
      ∃ root rest, computeTreeAux w k = root :: rest
        ∧ root.length = 2 ∧ rest.length = k
        ∧ LayerChain root rest
        ∧ rest.getLastD root = w
        ∧ root.prod = w.prod
  | 0, w, hw => ⟨w, [], rfl, by simpa using hw, rfl, trivial, rfl, rfl⟩
  | k + 1, w, hw => by
      have hwe : w.length % 2 = 0 := by
        rw [hw, pow_succ]
        omega
      have hpw : (pairProd w).length = 2 ^ (k + 1) := by
        rw [pairProd_length, hw, pow_succ]
        omega
      obtain ⟨root, rest, heq, hr2, hrl, hchain, hlastv, hprod⟩ :=
        computeTreeAux_shape k (pairProd w) hpw
      refine ⟨root, rest ++ [w], ?_, hr2, ?_, ?_, ?_, ?_⟩
      · show computeTreeAux w (k + 1) = root :: (rest ++ [w])
        rw [computeTreeAux, heq]
        rfl
      · simp [hrl]
      · refine LayerChain_snoc rest root w hchain ?_ ?_
        · rw [hlastv]
        · rw [hlastv, hpw, hw, pow_succ]
          ring
      · rw [getLastD_snoc]
      · rw [hprod, pairProd_prod w hwe]

/-- Multilinear evaluation of a pair at a single point coordinate. -/
theorem eval_mle_pair {p : ℕ} (r a b : ZMod p) :
    eval_mle [r] [a, b] = (1 - r) * a + r * b := by
  show ((1 - r) * 1 * a + (r * 1 * b + 0)) = _
  ring

/-- The honest grand-product layer loop: the prover's and verifier's loops
walk in lockstep over the non-root layers — same sumchecks, same challenges,
same histories — and the running claim is always the multilinear evaluation
of the previous layer at the running point. -/
theorem gpLoop_sync {p : ℕ} [Fact p.Prime] (hp : 3 < p) (O : Oracle p) :
    ∀ (lays : List (List (ZMod p))) (prev z : List (ZMod p))
      (claim : ZMod p) (h : List (TEvent p)),
      LayerChain prev lays → prev.length = 2 ^ z.length → 1 ≤ z.length →
      claim = eval_mle z prev →
      ∃ cls ls rsv ps zf hf,
        gpLoop O lays claim z h = (cls, ls, rsv, ps, zf, hf)
        ∧ gpVerifyLoop O (claim :: cls) ls rsv ps z.length lays.length z h
            = some (zf, hf)
        ∧ (claim :: cls).getLastD 0 = eval_mle zf (lays.getLastD prev)
        ∧ cls.length = lays.length ∧ ls.length = lays.length
        ∧ rsv.length = lays.length
  | [], prev, z, claim, h, hc, hl, hz, hclaim =>
      ⟨[], [], [], [], z, h, rfl, rfl, hclaim, rfl, rfl, rfl⟩
  | lay :: more, prev, z, claim, h, hc, hl, hz, hclaim => by
      obtain ⟨hprev, hlay, hchain⟩ := hc
      have hlay2 : lay.length = 2 ^ (z.length + 1) := by
        rw [hlay, hl, pow_succ]
        ring
      have hchisz : (chis z).length = 2 ^ z.length := chis_length z
      have hfl : (factor lay).1.length = 2 ^ z.length := by
        rw [factor_length_left, hlay2, pow_succ]
        omega
      have hfr : (factor lay).2.length = 2 ^ z.length := by
        rw [factor_length_right, hlay2, pow_succ]
        omega
      have hclaimt : claim = tsum3 (chis z) (factor lay).1 (factor lay).2 := by
        rw [hclaim, hprev]
        show eval_chis (chis z) (pairProd lay) = _
        exact eval_chis_pairProd (chis z) lay
          (by rw [pairProd_length, hlay2, hchisz, pow_succ]; omega)
      obtain ⟨polys, rs, h1, hscp, hscv, hlenr, hlenp⟩ :=
        sc_complete hp O z.length hz (chis z) (factor lay).1 (factor lay).2 h
          hchisz hfl hfr claim hclaimt
      set left := eval_mle rs (factor lay).1 with hLd
      set right := eval_mle rs (factor lay).2 with hRd
      set h3 := (h1 ++ [TEvent.scalar Label.grand_product_point left,
        TEvent.scalar Label.grand_product_point right])
        ++ [TEvent.chal Label.grand_product_challenge] with hh3
      set c := O h3 with hcd
      set claim2 := eval_ule [left, right] c with hc2
      set z2 := rs ++ [c] with hz2
      have hz2l : z2.length = z.length + 1 := by
        rw [hz2, List.length_append, hlenr]
        rfl
      have hlayz2 : lay.length = 2 ^ z2.length := by
        rw [hz2l]
        exact hlay2
      have hclaim2 : claim2 = eval_mle z2 lay := by
        rw [hc2, eval_ule_two (by omega) left right c, hz2,
          eval_mle_snoc c rs lay (by rw [hlay2, hlenr])]
      obtain ⟨cls, ls, rsv, ps, zf, hf, hloop, hvloop, hlastc, hclen, hlslen,
        hrslen⟩ :=
        gpLoop_sync hp O more lay z2 claim2 h3 hchain hlayz2 (by omega) hclaim2
      refine ⟨claim2 :: cls, left :: ls, right :: rsv, polys :: ps, zf, hf,
        ?_, ?_, ?_, ?_, ?_, ?_⟩
      · show gpLoop O (lay :: more) claim z h = _
        rw [gpLoop]
        simp only [hscp]
        simp only [← hLd, ← hRd]
        simp only [← hh3]
        simp only [← hcd, ← hc2, ← hz2]
        simp only [hloop]
      · show gpVerifyLoop O (claim :: claim2 :: cls) (left :: ls)
            (right :: rsv) (polys :: ps) z.length (more.length + 1) z h
            = some (zf, hf)
        rw [gpVerifyLoop]
        simp only [hscv]
        simp only [← hh3, ← hcd]
        rw [if_pos ?cnd]
        case cnd =>
          show eval_mle rs (chis z) * left * right = eval_eq z rs * left * right
          rw [show eval_mle rs (chis z) = eval_eq z rs from
            eval_chis_chis rs z (by rw [hlenr])]
        rw [show z.length + 1 = z2.length from hz2l.symm, ← hz2]
        exact hvloop
      · show (claim :: claim2 :: cls).getLastD 0
            = eval_mle zf ((lay :: more).getLastD prev)
        rw [show (lay :: more).getLastD prev = more.getLastD lay from by
          rw [List.getLastD_cons]]
        rw [show (claim :: claim2 :: cls).getLastD 0
            = (claim2 :: cls).getLastD claim from by rw [List.getLastD_cons]]
        rw [getLastD_irrel claim2 cls claim 0, hlastc]
      · simp [hclen]
      · simp [hlslen]
      · simp [hrslen]

/-- C5: Grand-product completeness — for every witness `w` of power-of-two
length (at least 2, the size of the protocol's root pair) and the true claim
`C = Π w`, `grandproduct::prove` followed by `grandproduct::verify` on a
matching transcript passes every check, and the returned pair `(claim, z)`
satisfies `claim = eval_mle(z, w)`, with the verifier finishing in the same
transcript state as the prover. -/
theorem gp_complete {p : ℕ} [Fact p.Prime] (hp : 3 < p) (O : Oracle p)
    (k : ℕ) (w : List (ZMod p)) (hw : w.length = 2 ^ (k + 1))
    (h0 : List (TEvent p)) :
    ∃ z : List (ZMod p),
      gp_verify O (gp_prove_free O w w.prod h0).claims
          (gp_prove_free O w w.prod h0).left_evals
          (gp_prove_free O w w.prod h0).right_evals
          (gp_prove_free O w w.prod h0).sumcheck_proofs h0
        = some ((eval_mle z w, z), (gp_prove_free O w w.prod h0).hist) := by
  obtain ⟨root, rest, htree, hr2, hrl, hchain, hlastv, hprodr⟩ :=
    computeTreeAux_shape k w hw
  obtain ⟨a, b, hab⟩ := List.length_eq_two.mp hr2
  subst hab
  have hct : compute_tree w = [a, b] :: rest := by
    unfold compute_tree
    rw [hw, ilog2_two_pow, Nat.add_sub_cancel]
    exact htree
  set r0 := O ((h0 ++ [TEvent.scalar Label.grand_product_claim w.prod])
    ++ [TEvent.chal Label.grand_product_challenge]) with hr0
  set claim1 := eval_ule [a, b] r0 with hcl1
  have hclaim1 : claim1 = eval_mle [r0] [a, b] := by
    rw [hcl1, eval_ule_two (by omega : (2 : ℕ) < p) a b r0, eval_mle_pair]
  obtain ⟨cls, ls, rsv, ps, zf, hf, hloop, hvloop, hlastc, hclen, hlslen,
    hrslen⟩ :=
    gpLoop_sync hp O rest [a, b] [r0] claim1
      ((h0 ++ [TEvent.scalar Label.grand_product_claim w.prod])
        ++ [TEvent.chal Label.grand_product_challenge])
      hchain (by norm_num) (by norm_num) hclaim1
  have hprove : gp_prove_free O w w.prod h0
      = { claims := w.prod :: claim1 :: cls
          left_evals := a :: ls
          right_evals := b :: rsv
          sumcheck_proofs := ps
          r0 := r0
          zFinal := zf
          hist := hf } := by
    unfold gp_prove_free
    simp only [hct, List.headD_cons, List.drop_succ_cons, List.drop_zero,
      List.getD_cons_zero, List.getD_cons_succ, ← hr0, ← hcl1, hloop]
  have hcond1 : ((a :: ls).length = (b :: rsv).length
      ∧ (a :: ls).length = (w.prod :: claim1 :: cls).length - 1) := by
    refine ⟨by simp [hlslen, hrslen], ?_⟩
    simp only [List.length_cons, hlslen, hclen]
    omega
  have hroot : w.prod = a * b := by
    rw [← hprodr]
    simp
  have hvloop2 : gpVerifyLoop O (claim1 :: cls) ls rsv ps 1 rest.length [r0]
      ((h0 ++ [TEvent.scalar Label.grand_product_claim w.prod])
        ++ [TEvent.chal Label.grand_product_challenge]) = some (zf, hf) := by
    simpa using hvloop
  have hfinalc : (w.prod :: claim1 :: cls).getLastD 0 = eval_mle zf w := by
    rw [show (w.prod :: claim1 :: cls).getLastD 0
        = (claim1 :: cls).getLastD w.prod from by rw [List.getLastD_cons],
      getLastD_irrel claim1 cls w.prod 0, hlastc]
    rw [show rest.getLastD [a, b] = w from hlastv]
  refine ⟨zf, ?_⟩
  rw [hprove]
  show gp_verify O (w.prod :: claim1 :: cls) (a :: ls) (b :: rsv) ps h0
      = some ((eval_mle zf w, zf), hf)
  rw [gp_verify]
  rw [if_pos hcond1, if_pos hroot]
  simp only [← hr0, List.drop_succ_cons, List.drop_zero, List.length_cons]
  rw [show cls.length + 1 + 1 - 2 = rest.length from by omega, hvloop2]
  simp only [hfinalc]

/-- A concrete deterministic oracle: the challenge is the length of the
transcript history. -/
def lenOracle (p : ℕ) : Oracle p := fun h => ((h.length : ℕ) : ZMod p)

/-- Witness for `gp_complete`: the repository's own grand-product test
vector `[2,1,2,2,2,1,7,1]` over `ZMod 101` with the deterministic
length-oracle and an empty starting transcript. -/
theorem gp_complete_witness :
    (3 < 101 ∧ ([2, 1, 2, 2, 2, 1, 7, 1] : List (ZMod 101)).length = 2 ^ (2 + 1))
    ∧ ∃ z : List (ZMod 101),
      gp_verify (lenOracle 101)
          (gp_prove_free (lenOracle 101) [2, 1, 2, 2, 2, 1, 7, 1]
            ([2, 1, 2, 2, 2, 1, 7, 1] : List (ZMod 101)).prod []).claims
          (gp_prove_free (lenOracle 101) [2, 1, 2, 2, 2, 1, 7, 1]
            ([2, 1, 2, 2, 2, 1, 7, 1] : List (ZMod 101)).prod []).left_evals
          (gp_prove_free (lenOracle 101) [2, 1, 2, 2, 2, 1, 7, 1]
            ([2, 1, 2, 2, 2, 1, 7, 1] : List (ZMod 101)).prod []).right_evals
          (gp_prove_free (lenOracle 101) [2, 1, 2, 2, 2, 1, 7, 1]
            ([2, 1, 2, 2, 2, 1, 7, 1] : List (ZMod 101)).prod []).sumcheck_proofs []
        = some ((eval_mle z [2, 1, 2, 2, 2, 1, 7, 1], z),
            (gp_prove_free (lenOracle 101) [2, 1, 2, 2, 2, 1, 7, 1]
              ([2, 1, 2, 2, 2, 1, 7, 1] : List (ZMod 101)).prod []).hist) :=
  ⟨⟨by norm_num, by decide⟩,
    @gp_complete 101 ⟨by norm_num⟩ (by norm_num) (lenOracle 101) 2
      [2, 1, 2, 2, 2, 1, 7, 1] (by decide) []⟩


/-- The all-zero oracle. -/
def zeroOracle (p : ℕ) : Oracle p := fun _ => 0

/-! ### Claims about the Spark protocol's transcript and dense vectors -/

/-- C2: the code never absorbs `vals`, `rows` or `cols`: the Spark prover's
very first transcript operations are the squeezes producing `rx ++ ry`
directly from the initial history, so `rx` and `ry` are the same for every
sparse-matrix instance of a given memory size (and the verifier mirrors
this, squeezing from the proof's `memory` alone). -/
theorem spark_challenges_ignore_instance {p : ℕ} (O : Oracle p)
    (h0 : List (TEvent p)) (memory : ℕ) (vals1 vals2 : List (ZMod p))
    (rows1 cols1 rows2 cols2 : List ℕ) :
    (sparkProveFull vals1 rows1 cols1 memory O h0).rx
        = (sparkProveFull vals2 rows2 cols2 memory O h0).rx
    ∧ (sparkProveFull vals1 rows1 cols1 memory O h0).ry
        = (sparkProveFull vals2 rows2 cols2 memory O h0).ry
    ∧ (sparkProveFull vals1 rows1 cols1 memory O h0).rx
        = ((squeezeN O Label.spark_challenge h0 (ilog2 memory * 2)).1).take
            (ilog2 memory) :=
  ⟨rfl, rfl, rfl⟩

/-- C3: the value `E_rx[i]` computed by `SparkProof::prove` is the inner
product of the table `chis rx` with the bit decomposition of `rows[i]`, not
the table entry `chis rx [rows[i]]`: at `memory = 16`, the all-zero oracle
(`rx = [0,0,0,0]`) and `rows[0] = 0`, the code computes `E_rx[0] = 0` while
`chis rx` has `1` at index `rows[0] = 0`. -/
theorem spark_e_rx_not_chi_lookup :
    (sparkProveFull ([1, 1] : List (ZMod 101)) [0, 0] [1, 2] 16
        (zeroOracle 101) []).proof.e_rx.getD 0 0 = 0
    ∧ (chis ((sparkProveFull ([1, 1] : List (ZMod 101)) [0, 0] [1, 2] 16
        (zeroOracle 101) []).rx)).getD 0 0 = 1 := by
  decide

/-- C4 counterexample: for the memory-16 instance (`N = 2^4`, so `m = 4`
and `m/2 = 2`) the prover's `rx` has length `4`, not `m/2 = 2`. -/
theorem spark_rx_length_not_half :
    ¬ ((sparkProveFull ([1, 1] : List (ZMod 101)) [0, 0] [1, 2] 16
        (zeroOracle 101) []).rx.length = ilog2 16 / 2) := by
  decide

/-- C4 (amended form): for memory size `N = 2^m` the Spark prover squeezes
`2m` challenges and `rx` and `ry` each have length `m = log2 N` (not
`m/2`). -/
theorem spark_rx_ry_lengths {p : ℕ} (O : Oracle p) (h0 : List (TEvent p))
    (vals : List (ZMod p)) (rows cols : List ℕ) (m : ℕ) :
    (sparkProveFull vals rows cols (2 ^ m) O h0).rx.length = m
    ∧ (sparkProveFull vals rows cols (2 ^ m) O h0).ry.length = m
    ∧ ((squeezeN O Label.spark_challenge h0 (ilog2 (2 ^ m) * 2)).1).length
        = 2 * m := by
  have hsq : ∀ (l : Label) (h : List (TEvent p)) (n : ℕ),
      ((squeezeN O l h n).1).length = n := by
    intro l h n
    induction n generalizing h with
    | zero => rfl
    | succ k ih => simp [squeezeN, ih]
  refine ⟨?_, ?_, ?_⟩
  · show (((squeezeN O Label.spark_challenge h0 (ilog2 (2 ^ m) * 2)).1).take
        (ilog2 (2 ^ m))).length = m
    rw [List.length_take, hsq, ilog2_two_pow]
    omega
  · show (((squeezeN O Label.spark_challenge h0 (ilog2 (2 ^ m) * 2)).1).drop
        (ilog2 (2 ^ m))).length = m
    rw [List.length_drop, hsq, ilog2_two_pow]
    omega
  · rw [hsq, ilog2_two_pow]
    omega

/-- C1: `SparkProof::verify` never inspects the two grand-product proofs
(it squeezes `γ, τ` and returns): its outcome is unchanged under replacing
both grand-product components by anything, and a Spark proof whose
grand-product components are garbage (empty lists) is still accepted. -/
theorem spark_verify_ignores_grand_products :
    (∀ (q : ℕ) (P : SparkProof q) (g1 g2 : GrandProductProof q) (O : Oracle q)
        (h : List (TEvent q)), sparkVerify (P.withGPs g1 g2) O h = sparkVerify P O h)
    ∧ (sparkVerify ((SparkProof.prove ([2, 3] : List (ZMod 101)) [0, 1] [1, 0] 4
          (lenOracle 101) []).withGPs ⟨[], [], [], []⟩ ⟨[], [], [], []⟩)
        (lenOracle 101) []).isSome = true := by
  refine ⟨?_, ?_⟩
  · intro q P g1 g2 O h
    rfl
  · decide

/-- C10: `GrandProductProof::prove` and the free function
`grandproduct::prove` are the same prover — for every witness, claim,
oracle and starting transcript state they produce identical claims,
left/right evaluation lists and sumcheck-proof lists, and perform the
identical sequence of transcript operations. -/
theorem gp_prove_variants_equal {p : ℕ} (O : Oracle p) (w : List (ZMod p))
    (claim : ZMod p) (h0 : List (TEvent p)) :
    (GrandProductProof.prove O w claim h0).1.claims = (gp_prove_free O w claim h0).claims
    ∧ (GrandProductProof.prove O w claim h0).1.left_evals
        = (gp_prove_free O w claim h0).left_evals
    ∧ (GrandProductProof.prove O w claim h0).1.right_evals
        = (gp_prove_free O w claim h0).right_evals
    ∧ (GrandProductProof.prove O w claim h0).1.sumcheck_proofs
        = (gp_prove_free O w claim h0).sumcheck_proofs
    ∧ (GrandProductProof.prove O w claim h0).2 = (gp_prove_free O w claim h0).hist :=
  ⟨rfl, rfl, rfl, rfl, rfl⟩

/-- C6 counterexample: the root pair is not absorbed before `r_0` is
squeezed — two witnesses with the same product claim `24` but different
root pairs (`(2,12)` versus `(24,1)`) receive the same challenge `r_0`. -/
theorem gp_root_pair_not_absorbed :
    (gpProveFull (lenOracle 101) ([1, 2, 3, 4] : List (ZMod 101)) 24 []).r0
      = (gpProveFull (lenOracle 101) ([4, 6, 1, 1] : List (ZMod 101)) 24 []).r0
    ∧ ¬ ((gpProveFull (lenOracle 101) ([1, 2, 3, 4] : List (ZMod 101)) 24
            []).left_evals.getD 0 0
        = (gpProveFull (lenOracle 101) ([4, 6, 1, 1] : List (ZMod 101)) 24
            []).left_evals.getD 0 0) := by
  decide

/-- C6 (amended form): at the root layer the claim `C` is absorbed — and
nothing else — before `r_0` is squeezed (so `r_0` depends on `C` but not on
the root values); the verifier checks `C = root[0]·root[1]`; and the
prover's next claim is `eval_ule (root, r_0)`. -/
theorem gp_root_layer_handling {p : ℕ} (O : Oracle p) (w : List (ZMod p))
    (claim : ZMod p) (h0 : List (TEvent p)) :
    (gpProveFull O w claim h0).r0
      = O (h0 ++ [TEvent.scalar Label.grand_product_claim claim,
          TEvent.chal Label.grand_product_challenge])
    ∧ (gpProveFull O w claim h0).claims.getD 1 0
      = eval_ule [((compute_tree w).headD []).getD 0 0,
          ((compute_tree w).headD []).getD 1 0] ((gpProveFull O w claim h0).r0)
    ∧ ∀ pf : GrandProductProof p,
        (GrandProductProof.verify pf O h0).isSome = true →
          pf.claims.getD 0 0 = pf.left_evals.getD 0 0 * pf.right_evals.getD 0 0 := by
  refine ⟨?_, rfl, ?_⟩
  · show O ((h0 ++ [TEvent.scalar Label.grand_product_claim claim])
        ++ [TEvent.chal Label.grand_product_challenge]) = _
    rw [List.append_assoc]
    rfl
  intro pf hacc
  unfold GrandProductProof.verify gp_verify at hacc
  cases hcl : pf.claims with
  | nil => rw [hcl] at hacc; simp at hacc
  | cons c0 ctail =>
    rw [hcl] at hacc
    simp only at hacc
    split at hacc
    · rename_i hlen
      cases hle : pf.left_evals with
      | nil => rw [hle] at hacc; simp at hacc
      | cons l0 ltail =>
        cases hre : pf.right_evals with
        | nil => rw [hle, hre] at hacc; simp at hacc
        | cons r0 rtail =>
          rw [hle, hre] at hacc
          simp only at hacc
          split at hacc
          · rename_i hroot
            simp [hcl, hle, hre, hroot]
          · simp at hacc
    · simp at hacc

/-- Witness for `gp_root_layer_handling`: the concrete oracle and witness
`[2,1,2,2,2,1,7,1]` with claim `112`, plus a concrete accepted
grand-product proof for the root-check consequence. -/
theorem gp_root_layer_handling_witness :
    ((gpProveFull (lenOracle 101) ([2, 1, 2, 2, 2, 1, 7, 1] : List (ZMod 101)) 112 []).r0
      = lenOracle 101 ([] ++ [TEvent.scalar Label.grand_product_claim 112,
          TEvent.chal Label.grand_product_challenge]))
    ∧ ((⟨[6, 42], [2], [3], []⟩ : GrandProductProof 101).claims.getD 0 0
      = (⟨[6, 42], [2], [3], []⟩ : GrandProductProof 101).left_evals.getD 0 0
        * (⟨[6, 42], [2], [3], []⟩ : GrandProductProof 101).right_evals.getD 0 0) :=
  ⟨(gp_root_layer_handling (lenOracle 101) [2, 1, 2, 2, 2, 1, 7, 1] 112 []).1,
   (gp_root_layer_handling (lenOracle 101) [2, 1, 2, 2, 2, 1, 7, 1] 112 []).2.2
     ⟨[6, 42], [2], [3], []⟩ (by decide)⟩

theorem scVerifyLoop_lengths {p : ℕ} (O : Oracle p) (degree : ℕ) :
    ∀ (prev : List (ZMod p)) (rest : List (List (ZMod p))) (h : List (TEvent p)),
      (scVerifyLoop O degree prev rest h).isSome = true →
      ∀ q ∈ rest, q.length = degree + 1
  | prev, [], h, _, q, hq => by simp at hq
  | prev, x :: xs, h, hacc, q, hq => by
      unfold scVerifyLoop at hacc
      simp only at hacc
      split at hacc
      · rename_i hcond
        rw [List.mem_cons] at hq
        rcases hq with rfl | hq
        · exact hcond.1
        · cases hrec : scVerifyLoop O degree x xs
              ((h ++ [TEvent.chal Label.sumcheck_challenge])
                ++ pointsEvents Label.sumcheck_points x) with
          | none => rw [hrec] at hacc; simp at hacc
          | some out =>
              exact scVerifyLoop_lengths O degree x xs _ (by rw [hrec]; rfl) q hq
      · simp at hacc

/-- C7 (amended form): an accepted sumcheck proof has every round polynomial
after the first of length exactly `degree+1`; the verifier checks neither
the first round polynomial's length nor that the number of round
polynomials equals the absorbed round count (the counterexample exhibits
accepted proofs violating both). -/
theorem sumcheck_verify_checks_tail_lengths {p : ℕ} (O : Oracle p)
    (claim : ZMod p) (polys : List (List (ZMod p))) (degree rounds : ℕ)
    (h0 : List (TEvent p))
    (hacc : (sc_verify O claim polys degree rounds h0).isSome = true) :
    ∀ q ∈ polys.drop 1, q.length = degree + 1 := by
  unfold sc_verify at hacc
  cases hpl : polys with
  | nil => rw [hpl] at hacc; simp at hacc
  | cons p0 rest =>
    rw [hpl] at hacc
    simp only at hacc
    split at hacc
    · rename_i hcond
      have hloop : (scVerifyLoop O degree p0 rest
          (h0 ++ [TEvent.scalar Label.sumcheck_claim claim,
            TEvent.scalar Label.sumcheck_degree ((degree : ℕ) : ZMod p),
            TEvent.scalar Label.sumcheck_rounds ((rounds : ℕ) : ZMod p)]
            ++ pointsEvents Label.sumcheck_points p0)).isSome = true := by
        cases hrec : scVerifyLoop O degree p0 rest
            (h0 ++ [TEvent.scalar Label.sumcheck_claim claim,
              TEvent.scalar Label.sumcheck_degree ((degree : ℕ) : ZMod p),
              TEvent.scalar Label.sumcheck_rounds ((rounds : ℕ) : ZMod p)]
              ++ pointsEvents Label.sumcheck_points p0) with
        | none => rw [hrec] at hacc; simp at hacc
        | some out => rfl
      intro q hq
      simp only [hpl, List.drop_succ_cons, List.drop_zero] at hq
      exact scVerifyLoop_lengths O degree p0 rest _ hloop q hq
    · simp at hacc

/-- Witness for `sumcheck_verify_checks_tail_lengths`: the accepted
two-polynomial proof of the counterexample has its second round polynomial
of length `degree + 1 = 2`. -/
theorem sumcheck_verify_checks_tail_lengths_witness :
    (sc_verify (lenOracle 101) (5 : ZMod 101) [[2, 3], [10, 0]] 1 1 []).isSome
        = true
    ∧ ([10, 0] : List (ZMod 101)).length = 1 + 1 :=
  ⟨by decide,
    sumcheck_verify_checks_tail_lengths (lenOracle 101) 5 [[2, 3], [10, 0]] 1 1
      [] (by decide) [10, 0] (by decide)⟩

/-- C7 counterexample: the sumcheck verifier accepts a proof whose first
round polynomial has 2 values although the absorbed degree is 3 (so
`degree+1 = 4`), and also accepts a proof with 2 round polynomials although
the absorbed round count is 1. -/
theorem sumcheck_verify_lengths_unchecked :
    ((sc_verify (lenOracle 101) (5 : ZMod 101) [[2, 3]] 3 1 []).isSome = true
      ∧ ¬ (([2, 3] : List (ZMod 101)).length = 3 + 1))
    ∧ ((sc_verify (lenOracle 101) (5 : ZMod 101) [[2, 3], [10, 0]] 1 1 []).isSome = true
      ∧ ¬ (([[2, 3], [10, 0]] : List (List (ZMod 101))).length = 1)) := by
  decide

end Hypercube
